import Mathlib

/-!
Verification development for the dependency-analysis engine of the mod
manager plugin: the dependency graph context, the disruption score, the
load-order diagnostics, the separator-boundary computation, the
minimal-disruption corrector, the priority-aware topological sorter with
cycle breaking, and the metadata cache lookup.  Each definition is a
shallow embedding of the corresponding Python function
(`src/core/analyzer.py`, `src/ui/main_window.py`).
-/

namespace DepAnalysis

/-- A requirement reference as stored in the dependency graph: the target
id (`req_info['id']`, with `""` standing for a falsy/absent id) and the
free-text note. -/
structure Req where
  rid : String
  notes : String
deriving DecidableEq

/-- The analyzer state used by the graph algorithms: the forward
dependency graph (`full_graph`: mod id to requirement list), the
`folder_to_id` map, the `id_to_folders` map, the set of installed ids,
the ignore-requirements-of rule list and the id replacement map. -/
structure Ctx where
  fullGraph : List (String × List Req)
  folderToId : List (String × String)
  idToFolders : List (String × List String)
  installedIds : List String
  ignoreReq : List String
  replMap : List (String × String)
deriving DecidableEq

/-- Association-list lookup, modelling a Python dict lookup (`dict.get`). -/
def alookup {β : Type} : List (String × β) → String → Option β
  | [], _ => none
  | (k, v) :: r, x => if k = x then some v else alookup r x

/-- Index of the last occurrence of `x` in a list, modelling the dict
comprehension `{name: i for i, name in enumerate(order)}` where a later
duplicate overwrites the index of an earlier one. -/
def lastIdxOf? : List String → String → Option Nat
  | [], _ => none
  | y :: r, x =>
    match lastIdxOf? r x with
    | some i => some (i + 1)
    | none => if y = x then some 0 else none

/-- Index of the first occurrence of `x`, modelling Python `list.index`
(returning `none` where Python raises `ValueError`). -/
def posOf? : List String → String → Option Nat
  | [], _ => none
  | y :: r, x => if y = x then some 0 else (posOf? r x).map (· + 1)

/-- Python list insertion `l[:i] + [x] + l[i:]`: an index past the end
appends. -/
def pyInsert (l : List String) (i : Nat) (x : String) : List String :=
  l.take i ++ x :: l.drop i

/-- The integer range `range(a, b + 1)` used for the corrector's search
window, empty when `b < a`. -/
def intRange (a : Nat) (b : Int) : List Nat :=
  if b < (a : Int) then [] else List.range' a ((b - (a : Int)).toNat + 1)

/-- Pointwise update of a function on strings, modelling a dict write. -/
def upd {α : Type} (f : String → α) (k : String) (v : α) : String → α :=
  fun x => if x = k then v else f x

/-- The method `_get_effective_id`: apply exactly one replacement-map hop
(`self.replacement_map.get(required_id, required_id)`). -/
def getEffectiveId (c : Ctx) (x : String) : String :=
  (alookup c.replMap x).getD x

/-- The method `_is_dependency_satisfied`: the effective id is installed. -/
def isDependencySatisfied (c : Ctx) (x : String) : Prop :=
  getEffectiveId c x ∈ c.installedIds

instance (c : Ctx) (x : String) : Decidable (isDependencySatisfied c x) := by
  unfold isDependencySatisfied; infer_instance

/-- Requirement list of a mod id (`full_graph.get(dep_id, [])`). -/
def reqTargets (c : Ctx) (did : String) : List Req :=
  (alookup c.fullGraph did).getD []

/-- Folders providing a mod id (`self.id_to_folders.get(effective_id, [])`). -/
def foldersOf (c : Ctx) (pid : String) : List String :=
  (alookup c.idToFolders pid).getD []

/-- One dependent folder's contribution to `_calculate_disruption_score`:
skip folders without an id or in the ignore-requirements-of list, then
count each provider folder positioned after the dependent. -/
def scoreContrib (c : Ctx) (pm : String → Option Nat) (f : String) : Nat :=
  match pm f with
  | none => 0
  | some fi =>
    match alookup c.folderToId f with
    | none => 0
    | some did =>
      if did = "" ∨ did ∈ c.ignoreReq then 0
      else ((reqTargets c did).map (fun r =>
        if r.rid = "" then 0
        else if isDependencySatisfied c r.rid then
          ((foldersOf c (getEffectiveId c r.rid)).map (fun pf =>
            match pm pf with
            | some pp => if fi < pp then 1 else 0
            | none => 0)).sum
        else 0)).sum

/-- The method `_calculate_disruption_score`: total count of provider
folders placed after their dependent folder in `order`, over the whole
graph.  Python iterates the priority dict's distinct keys with
last-occurrence indices. -/
def disruptionScore (c : Ctx) (order : List String) : Nat :=
  ((order.dedup).map (scoreContrib c (lastIdxOf? order))).sum

/-- The translated sentinel label for items above the first separator. -/
def NOSEP : String := "无分隔符"

/-- The translated fallback label used by the diagnostics when a folder
has no recorded separator. -/
def UNKNOWN : String := "未知"

/-- The method `_get_mod_separators`: walk the profile order, remembering
the nearest preceding separator for every mod with a positive nexus id.
A later write to the same folder name wins, hence the cons to the front
together with first-match `alookup`. -/
def getModSeparators (order : List String) (isSep hasId : String → Bool) :
    List (String × String) :=
  (order.foldl (fun (acc : List (String × String) × String) m =>
    if isSep m then (acc.1, m)
    else if hasId m then ((m, acc.2) :: acc.1, acc.2)
    else acc) ([], NOSEP)).1

/-- A single ordering violation as emitted by
`_analyze_current_load_order`. -/
structure Violation where
  modFolder : String
  modId : String
  providerFolder : String
  providerId : String
  notes : String
  separator : String
deriving DecidableEq

/-- The method `_analyze_current_load_order`: for every installed
dependent not in the ignore-requirements-of list, flag every provider
folder of an installed effective requirement that is positioned after the
dependent in the current order. -/
def analyzeCurrentLoadOrder (c : Ctx) (order : List String)
    (isSep hasId : String → Bool) : List Violation :=
  let pm := lastIdxOf? order
  let sepMap := getModSeparators order isSep hasId
  c.folderToId.flatMap (fun fd =>
    if fd.2 ∈ c.ignoreReq then []
    else
      match pm fd.1 with
      | none => []
      | some dp =>
        (reqTargets c fd.2).flatMap (fun r =>
          if r.rid = "" then []
          else if getEffectiveId c r.rid ∈ c.installedIds then
            (foldersOf c (getEffectiveId c r.rid)).filterMap (fun pf =>
              match pm pf with
              | some pp =>
                if dp < pp then
                  some ⟨fd.1, fd.2, pf, getEffectiveId c r.rid, r.notes,
                    (alookup sepMap fd.1).getD UNKNOWN⟩
                else none
              | none => none)
          else []))

/-- State of the separator-boundary scan in `correct_load_order`:
the `separator_map` dict, the `separator_boundaries` dict (as a total
function with the defaultdict default baked in) and the current
separator. -/
structure BState where
  sepMap : String → Option String
  bounds : String → Nat × Int
  cur : String

/-- One iteration of the boundary scan over `(i, mod_name)`: a separator
closes the previous named group (setting its `end` to `i`) and opens its
own group at `i + 1`; a plain entry is recorded under the current
separator. -/
def boundsStep (isSep : String → Bool) (st : BState) (x : String) (i : Nat) : BState :=
  if isSep x then
    let b1 := if st.cur ≠ NOSEP then
        upd st.bounds st.cur ((st.bounds st.cur).1, (i : Int))
      else st.bounds
    { sepMap := st.sepMap
      bounds := upd b1 x ((i + 1 : Nat), (b1 x).2)
      cur := x }
  else
    { st with sepMap := upd st.sepMap x (some st.cur) }

/-- The boundary scan over the whole original order, with the running
position. -/
def boundsFold (isSep : String → Bool) : List String → Nat → BState → BState
  | [], _, st => st
  | x :: rest, i, st => boundsFold isSep rest (i + 1) (boundsStep isSep st x i)

/-- Initial boundary state: the sentinel group starts at 0 with end -1;
every other key defaults (defaultdict) to `start = len(order)`,
`end = -1`. -/
def initBState (n : Nat) : BState :=
  { sepMap := fun _ => none
    bounds := fun g => if g = NOSEP then (0, (-1 : Int)) else ((n : Nat), (-1 : Int))
    cur := NOSEP }

/-- The complete separator-boundary computation of `correct_load_order`,
including the final `separator_boundaries[current_separator]['end'] =
len(original_order)`. -/
def computeBounds (isSep : String → Bool) (order : List String) : BState :=
  let st := boundsFold isSep order 0 (initBState order.length)
  { st with bounds := upd st.bounds st.cur ((st.bounds st.cur).1, (order.length : Int)) }

/-- Highest current index among the providers the dependent must follow
(`last_provider_pos`), starting from -1 and skipping providers missing
from the working order. -/
def lastProviderPos (o : List String) (providers : List String) : Int :=
  providers.foldl (fun acc p =>
    match posOf? o p with
    | some j => max acc (j : Int)
    | none => acc) (-1)

/-- Accumulator of the candidate scan: `min_disruption` (none for the
initial infinity), `best_pos` and `current_best_order`. -/
structure BestSt where
  minD : Option Nat
  bestPos : Int
  bestOrd : Option (List String)

/-- One candidate insertion index: strictly better disruption wins, an
equal disruption wins only when closer to the original index. -/
def bestStep (c : Ctx) (temp : List String) (d : String) (a : Nat)
    (st : BestSt) (i : Nat) : BestSt :=
  let cand := pyInsert temp i d
  let disr := disruptionScore c cand
  match st.minD with
  | none => ⟨some disr, (i : Int), some cand⟩
  | some m =>
    if disr < m then ⟨some disr, (i : Int), some cand⟩
    else if disr = m ∧ |(i : Int) - (a : Int)| < |st.bestPos - (a : Int)| then
      ⟨some m, (i : Int), some cand⟩
    else st

/-- Scan the whole candidate window. -/
def bestCandidate (c : Ctx) (temp : List String) (d : String) (a : Nat)
    (cands : List Nat) : BestSt :=
  cands.foldl (bestStep c temp d a) ⟨none, -1, none⟩

/-- The corrector's candidate index window for one dependent:
`range(max(group.start, last_provider_pos + 1), group.end + 1)` where the
group is the dependent's separator group. -/
def depWindow (bst : BState) (problems : List (String × String))
    (o : List String) (d : String) : List Nat :=
  let providers := (problems.filter (fun p => decide (p.1 = d))).map (fun p => p.2)
  let lp := lastProviderPos o providers
  let g := (bst.sepMap d).getD NOSEP
  intRange (max (bst.bounds g).1 (lp + 1).toNat) (bst.bounds g).2

/-- Per-dependent body continued: remove the dependent at its current
index, scan the candidate insertions over the window, and adopt the best
candidate when it differs from the working order. -/
def processDep (c : Ctx) (bst : BState) (problems : List (String × String))
    (o : List String) (d : String) : List String :=
  match posOf? o d with
  | none => o
  | some a =>
    match (bestCandidate c (o.eraseIdx a) d a (depWindow bst problems o d)).bestOrd with
    | some b => if o ≠ b then b else o
    | none => o

/-- One full pass over the moving set, with the `made_change_in_pass`
flag. -/
def passOnce (c : Ctx) (bst : BState) (problems : List (String × String))
    (movers : List String) (o : List String) : List String × Bool :=
  movers.foldl (fun acc d =>
    let o2 := processDep c bst problems acc.1 d
    if acc.1 ≠ o2 then (o2, true) else acc) (o, false)

/-- The pass loop `for _ in range(len(mods_to_move) + 2)` with the early
exit on a fixed point. -/
def correctLoop (c : Ctx) (bst : BState) (problems : List (String × String))
    (movers : List String) : Nat → List String → List String
  | 0, o => o
  | n + 1, o =>
    let r := passOnce c bst problems movers o
    if r.2 then correctLoop c bst problems movers n r.1 else r.1

/-- The distinct dependents of the selected violations
(`mods_to_move = {p[0] for p in problems_to_fix}`). -/
def modsToMove (problems : List (String × String)) : List String :=
  (problems.map (fun p => p.1)).dedup

/-- The corrector `correct_load_order` (its pure reordering part): build
the separator boundaries from the original order and run the pass loop. -/
def correctLoadOrder (c : Ctx) (isSep : String → Bool) (originalOrder : List String)
    (problems : List (String × String)) : List String :=
  let bst := computeBounds isSep originalOrder
  let movers := modsToMove problems
  correctLoop c bst problems movers (movers.length + 2) originalOrder

/-- The set `moved_mods`: every name whose position differs between the
original and the proposed order (union of both position-wise
comparisons). -/
def movedMods (o1 o2 : List String) : Finset String :=
  ((((o1.zip o2).filter (fun p => decide (p.1 ≠ p.2))).map (fun p => p.1))
    ++ (((o1.zip o2).filter (fun p => decide (p.1 ≠ p.2))).map (fun p => p.2))).toFinset

/-- Inputs of `_perform_topological_sort` beyond the graph context: the
category of each known mod id (`known_mod_data[...]["category"]`), the
static category priority table, and the current profile order used for
the positional tie-break. -/
structure TopoIn where
  c : Ctx
  knownCat : List (String × String)
  catPriorities : List (String × Nat)
  currentOrder : List String

/-- Category of a folder: id via `folder_to_id`, then
`known_mod_data.get(mod_id, {}).get("category", "Default")`. -/
def categoryOf (t : TopoIn) (f : String) : String :=
  (alookup t.knownCat ((alookup t.c.folderToId f).getD "")).getD "Default"

/-- The heap key `(main_priority, current_pos, folder)`:
`CATEGORY_PRIORITIES.get(category, 50)` and
`current_priority_map.get(folder, 9999)`. -/
def keyOf (t : TopoIn) (f : String) : Nat × Nat × String :=
  ((alookup t.catPriorities (categoryOf t f)).getD 50,
    (lastIdxOf? t.currentOrder f).getD 9999, f)

/-- Lexicographic strict order on heap keys, as Python compares the
tuples. -/
def keyLt (a b : Nat × Nat × String) : Prop :=
  a.1 < b.1 ∨ (a.1 = b.1 ∧ (a.2.1 < b.2.1 ∨ (a.2.1 = b.2.1 ∧ a.2.2 < b.2.2)))

instance (a b : Nat × Nat × String) : Decidable (keyLt a b) := by
  unfold keyLt; infer_instance

/-- The folder-level constraint edges `(provider_folder, dependent_folder)`
built by `_perform_topological_sort` from satisfied requirements, in
generation order. -/
def topoEdges (c : Ctx) : List (String × String) :=
  c.folderToId.flatMap (fun fd =>
    if fd.2 ∈ c.ignoreReq then []
    else (reqTargets c fd.2).flatMap (fun r =>
      if isDependencySatisfied c r.rid then
        (foldersOf c (getEffectiveId c r.rid)).filterMap (fun pf =>
          if (alookup c.folderToId pf).isSome then some (pf, fd.1) else none)
      else []))

/-- In-degree of a folder: the number of edges targeting it. -/
def indeg (E : List (String × String)) (f : String) : Nat :=
  (E.filter (fun e => decide (e.2 = f))).length

/-- Adjacency list of a folder (`graph.get(u_folder, [])`), in edge
generation order. -/
def adjOf (E : List (String × String)) (u : String) : List String :=
  (E.filter (fun e => decide (e.1 = u))).map (fun e => e.2)

/-- Minimum of the ready heap by the lexicographic key, modelling what
`heapq.heappop` returns. -/
def minKey : List (Nat × Nat × String) → Option (Nat × Nat × String)
  | [] => none
  | k :: r =>
    some (match minKey r with
      | none => k
      | some m => if keyLt m k then m else k)

/-- Pop the heap minimum: the returned queue drops one occurrence of it. -/
def popMin (q : List (Nat × Nat × String)) :
    Option ((Nat × Nat × String) × List (Nat × Nat × String)) :=
  match minKey q with
  | none => none
  | some m => some (m, q.erase m)

/-- Neighbor relaxation after placing `u`: decrement each positive
in-degree along the adjacency list and push every folder reaching zero. -/
def relax (t : TopoIn) (adjList : List String) (deg : String → Nat)
    (q : List (Nat × Nat × String)) : (String → Nat) × List (Nat × Nat × String) :=
  adjList.foldl (fun acc v =>
    if 0 < acc.1 v then
      if acc.1 v - 1 = 0 then (upd acc.1 v (acc.1 v - 1), acc.2 ++ [keyOf t v])
      else (upd acc.1 v (acc.1 v - 1), acc.2)
    else acc) (deg, q)

/-- Stuck nodes: positive in-degree and not yet placed
(`remaining_nodes`). -/
def stuckNodes (keys : List String) (deg : String → Nat) (sorted : List String) :
    List String :=
  keys.filter (fun f => decide (0 < deg f) && decide (f ∉ sorted))

/-- Minimum of a nonempty candidate list by the heap key, modelling
`min(remaining_nodes, key=...)`. -/
def argminKey (t : TopoIn) (x : String) (xs : List String) : String :=
  xs.foldl (fun acc y => if keyLt (keyOf t y) (keyOf t acc) then y else acc) x

/-- The `while len(sorted_order) < n` loop of `_perform_topological_sort`,
structurally recursive on a fuel argument (the run is later proved to
finish strictly within the fuel supplied by `performTopologicalSort`).
When the heap is empty it breaks the cycle at the stuck node with the
least key, forcing its in-degree to zero. -/
def topoLoop (t : TopoIn) (E : List (String × String)) (keys : List String) :
    Nat → (String → Nat) → List (Nat × Nat × String) → List String → List String →
    List String × List String
  | 0, _, _, sorted, breakers => (sorted, breakers)
  | fuel + 1, deg, q, sorted, breakers =>
    if sorted.length < keys.length then
      match popMin q with
      | some kq =>
        if kq.1.2.2 ∈ sorted then topoLoop t E keys fuel deg kq.2 sorted breakers
        else
          let r := relax t (adjOf E kq.1.2.2) deg kq.2
          topoLoop t E keys fuel r.1 r.2 (sorted ++ [kq.1.2.2]) breakers
      | none =>
        match stuckNodes keys deg sorted with
        | [] => (sorted, breakers)
        | r0 :: rs =>
          let b := argminKey t r0 rs
          topoLoop t E keys fuel (upd deg b 0) (q ++ [keyOf t b]) sorted
            (breakers ++ [b])
    else (sorted, breakers)

/-- Key list of the `folder_to_id` dict. -/
def ftiKeys (c : Ctx) : List String :=
  c.folderToId.map (fun p => p.1)

/-- The initial ready heap: every zero-in-degree folder, in dict order. -/
def initQueue (t : TopoIn) (deg : String → Nat) : List (Nat × Nat × String) :=
  (ftiKeys t.c).filterMap (fun f => if deg f = 0 then some (keyOf t f) else none)

/-- The method `_perform_topological_sort` (absent cancellation): build
the folder graph and in-degrees, seed the ready heap, and run the main
loop.  Returns `(sorted_order, broken_cycle_nodes)`. -/
def performTopologicalSort (t : TopoIn) : List String × List String :=
  let E := topoEdges t.c
  let deg0 := fun f => indeg E f
  let n := (ftiKeys t.c).length
  topoLoop t E (ftiKeys t.c) (2 * n + 2) deg0 (initQueue t deg0) [] []

/-- A scraped metadata record, trimmed to the fields the cache-lookup
contract concerns: the id, display name, category and the optional error
marker (`"error"` key present in the dict). -/
structure ModData where
  mid : String
  name : String
  category : String
  error : Option String
deriving DecidableEq

/-- Outcome of one fetch attempt inside `get_mod_data`: a returned record
(a normal scrape or the explicit unavailable record built in the notice
branch) or a raised exception carrying its message. -/
inductive FetchResult where
  | ok (d : ModData)
  | fail (e : String)

/-- The method `_is_cache_entry_valid`: expiration window 0 never
expires; an unparseable timestamp is invalid. -/
def isCacheEntryValid (expirationDays : Nat) (now : Int) (ts : Option Int) : Bool :=
  if expirationDays = 0 then true
  else
    match ts with
    | none => false
    | some tv => decide (now - tv < (expirationDays : Int))

/-- The degraded record written after all retries fail
(`{"id": mod_id, "name": "抓取失败...", "error": str(last_error), ...}`);
a never-assigned `last_error` prints as `"None"`. -/
def errorRecord (mid : String) (lastErr : Option String) : ModData :=
  ⟨mid, "抓取失败: ID " ++ mid, "Default", some (lastErr.getD "None")⟩

/-- The retry loop `for attempt in range(MAX_RETRIES)` of `get_mod_data`:
each attempt first polls the stop flag (returning nothing on
cancellation), then either returns the fetched record or retries; an
exhausted loop returns the explicit error record. -/
def retryLoop (fetch : Nat → FetchResult) (stop : Bool) (mid : String) :
    Nat → Nat → Option String → Option ModData
  | 0, _, lastErr => some (errorRecord mid lastErr)
  | n + 1, attempt, _ =>
    if stop then none
    else
      match fetch attempt with
      | .ok d => some d
      | .fail e => retryLoop fetch stop mid n (attempt + 1) (some e)

/-- The method `get_mod_data`: bail out on the stop flag or a missing
database connection, return a fresh cache row, otherwise run the retry
loop. -/
def getModData (stop conn : Bool) (row : Option (Option Int × ModData))
    (expirationDays : Nat) (now : Int) (fetch : Nat → FetchResult)
    (maxRetries : Nat) (mid : String) : Option ModData :=
  if stop then none
  else if conn = false then none
  else
    match row with
    | some tsd =>
      if isCacheEntryValid expirationDays now tsd.1 then some tsd.2
      else retryLoop fetch stop mid maxRetries 0 none
    | none => retryLoop fetch stop mid maxRetries 0 none

/-! Concrete instances used by the scenario claims. -/

/-- Scenario of the spec's worked example: items A, B, C installed, the
metadata edge "B requires A", equal category priorities, no separators. -/
def exABC : Ctx :=
  { fullGraph := [("b", [⟨"a", ""⟩])]
    folderToId := [("B", "b"), ("A", "a"), ("C", "c")]
    idToFolders := [("a", ["A"]), ("b", ["B"]), ("c", ["C"])]
    installedIds := ["b", "a", "c"]
    ignoreReq := []
    replMap := [] }

/-- Scenario with one selected violation (D, P) and two mods M1, M2 that
require D and sit between D and P. -/
def exDMMP : Ctx :=
  { fullGraph := [("d", [⟨"p", ""⟩]), ("m1", [⟨"d", ""⟩]), ("m2", [⟨"d", ""⟩])]
    folderToId := [("D", "d"), ("M1", "m1"), ("M2", "m2"), ("P", "p")]
    idToFolders := [("d", ["D"]), ("m1", ["M1"]), ("m2", ["M2"]), ("p", ["P"])]
    installedIds := ["d", "m1", "m2", "p"]
    ignoreReq := []
    replMap := [] }

/-- Scenario with two separator groups: D sits under separator S1, its
provider P under the later separator S2. -/
def exSep : Ctx :=
  { fullGraph := [("d", [⟨"p", ""⟩])]
    folderToId := [("D", "d"), ("P", "p")]
    idToFolders := [("d", ["D"]), ("p", ["P"])]
    installedIds := ["d", "p"]
    ignoreReq := []
    replMap := [] }

/-- Separator predicate of the two-group scenario. -/
def exSepIsSep : String → Bool := fun x => x = "S1" || x = "S2"

/-- Scenario where a folder provides its own (effective) requirement. -/
def exSelf : Ctx :=
  { fullGraph := [("x", [⟨"x", ""⟩])]
    folderToId := [("F", "x")]
    idToFolders := [("x", ["F"])]
    installedIds := ["x"]
    ignoreReq := []
    replMap := [] }

/-- Replacement map with the chain A to B to C. -/
def chainCtx : Ctx :=
  { fullGraph := [], folderToId := [], idToFolders := [], installedIds := [],
    ignoreReq := [], replMap := [("A", "B"), ("B", "C")] }

/-- Replacement map with the two-cycle A to B to A. -/
def cycCtx : Ctx :=
  { fullGraph := [], folderToId := [], idToFolders := [], installedIds := [],
    ignoreReq := [], replMap := [("A", "B"), ("B", "A")] }

/-- Closed interval membership for a separator-group index range. -/
def inRegion (bst : BState) (g : String) (j : Nat) : Prop :=
  (bst.bounds g).1 ≤ j ∧ (j : Int) ≤ (bst.bounds g).2

instance (bst : BState) (g : String) (j : Nat) : Decidable (inRegion bst g j) := by
  unfold inRegion; infer_instance

/-- One name strictly precedes another in an order (first occurrences). -/
def ordBefore (o : List String) (x y : String) : Prop :=
  ∃ jx jy, posOf? o x = some jx ∧ posOf? o y = some jy ∧ jx < jy

/-- Consecutive entries of the list are edges of `E`. -/
def edgeChain (E : List (String × String)) : List String → Prop
  | [] => True
  | [_] => True
  | x :: y :: rest => (x, y) ∈ E ∧ edgeChain E (y :: rest)

/-- The edge list contains a directed cycle: a nonempty edge chain whose
last node has an edge back to its first node. -/
def hasCycle (E : List (String × String)) : Prop :=
  ∃ x xs, edgeChain E (x :: xs) ∧
    ((x :: xs).getLast (by simp), x) ∈ E

/-- Topological-sort scenario with the two-cycle "A requires B" and
"B requires A". -/
def exCyc : TopoIn :=
  { c := { fullGraph := [("a", [⟨"b", ""⟩]), ("b", [⟨"a", ""⟩])]
           folderToId := [("A", "a"), ("B", "b")]
           idToFolders := [("a", ["A"]), ("b", ["B"])]
           installedIds := ["a", "b"]
           ignoreReq := []
           replMap := [] }
    knownCat := []
    catPriorities := []
    currentOrder := ["A", "B"] }

/-- Invariant of the separator-boundary scan after processing a prefix of
length `i` of the original order, with `rest` still to process: the
sentinel group is open at 0, the current group (when not the sentinel) is
open at some `scur + 1 ≤ i` with end still `-1`, every other group is
either untouched (defaultdict value `(len, -1)`) or closed strictly below
the current group's start, closed groups are pairwise disjoint, and every
recorded plain entry lies inside its recorded group's range. -/
structure BFInv (isSep : String → Bool) (orig rest : List String) (i : Nat)
    (st : BState) : Prop where
  hlen : i + rest.length = orig.length
  hnosep1 : st.bounds NOSEP = (0, (-1 : Int))
  hcur : st.cur = NOSEP ∨ (st.cur ∉ rest ∧ st.cur ≠ NOSEP)
  hfresh : ∀ g, g ≠ NOSEP → st.bounds g ≠ (orig.length, (-1 : Int)) → g ∉ rest
  hnone : st.cur = NOSEP → ∀ g, g ≠ NOSEP → st.bounds g = (orig.length, (-1 : Int))
  hopen : st.cur ≠ NOSEP →
    ∃ scur, st.bounds st.cur = (scur + 1, (-1 : Int)) ∧ scur + 1 ≤ i
  hclosed : ∀ g, g ≠ NOSEP → g ≠ st.cur →
    st.bounds g = (orig.length, (-1 : Int)) ∨
    (1 ≤ (st.bounds g).1 ∧ (st.bounds g).2 < ((st.bounds st.cur).1 : Int))
  hdisj : ∀ g h, g ≠ NOSEP → h ≠ NOSEP → g ≠ h → g ≠ st.cur → h ≠ st.cur →
    ∀ j : Nat, ¬ ((st.bounds g).1 ≤ j ∧ (j : Int) ≤ (st.bounds g).2 ∧
      (st.bounds h).1 ≤ j ∧ (j : Int) ≤ (st.bounds h).2)
  hsmap : ∀ x g, st.sepMap x = some g → g = NOSEP ∨ g ∉ rest
  hmem : ∀ x g, st.sepMap x = some g →
    ∃ j, posOf? orig x = some j ∧ j < i ∧ (st.bounds g).1 ≤ j ∧
      ((j : Int) < (st.bounds g).2 ∨
        ((st.bounds g).2 = -1 ∧ (g = st.cur ∨ g = NOSEP)))
  hnosepmem : ∀ x, st.sepMap x = some NOSEP →
    ∃ j, posOf? orig x = some j ∧
      ∀ g, g ≠ NOSEP → st.bounds g ≠ (orig.length, (-1 : Int)) →
        j < (st.bounds g).1
  hcover : ∀ x ∈ orig, isSep x = false → x ∉ rest → (st.sepMap x).isSome
  hdom : ∀ x g, st.sepMap x = some g → x ∉ rest

/-- The position invariant of the corrector's local search: the working
order is a permutation of the original order, and every name either still
sits at its original index or has both its original and its current index
inside one and the same separator-group region. -/
def regionInv (bst : BState) (orig o : List String) : Prop :=
  o.Perm orig ∧ ∀ x jx, posOf? o x = some jx →
    ∃ j0, posOf? orig x = some j0 ∧
      (jx = j0 ∨ ∃ g, inRegion bst g j0 ∧ inRegion bst g jx)

/-! Helper lemmas about the candidate scan. -/

theorem bestFold_spec (c : Ctx) (temp : List String) (d : String) (a : Nat) :
    ∀ (cands : List Nat) (m0 : Nat) (bp0 : Int) (b0 : List String),
      disruptionScore c b0 = m0 →
      ∃ m bp b,
        cands.foldl (bestStep c temp d a) ⟨some m0, bp0, some b0⟩ = ⟨some m, bp, some b⟩ ∧
        disruptionScore c b = m ∧ m ≤ m0 ∧
        ((b = b0 ∧ bp = bp0) ∨ ∃ i ∈ cands, b = pyInsert temp i d ∧ bp = (i : Int)) ∧
        (∀ i ∈ cands, m ≤ disruptionScore c (pyInsert temp i d)) := by
  intro cands
  induction cands with
  | nil =>
    intro m0 bp0 b0 h0
    exact ⟨m0, bp0, b0, rfl, h0, le_refl _, Or.inl ⟨rfl, rfl⟩, by simp⟩
  | cons i cs ih =>
    intro m0 bp0 b0 h0
    by_cases hlt : disruptionScore c (pyInsert temp i d) < m0
    · have hstep : List.foldl (bestStep c temp d a) ⟨some m0, bp0, some b0⟩ (i :: cs) =
          List.foldl (bestStep c temp d a)
            ⟨some (disruptionScore c (pyInsert temp i d)), (i : Int),
              some (pyInsert temp i d)⟩ cs := by
        simp [bestStep, hlt]
      obtain ⟨m, bp, b, hf, hb, hle, hmem, hcov⟩ :=
        ih (disruptionScore c (pyInsert temp i d)) (i : Int) (pyInsert temp i d) rfl
      refine ⟨m, bp, b, hstep ▸ hf, hb, le_trans hle (le_of_lt hlt), ?_, ?_⟩
      · rcases hmem with ⟨hb0, hbp⟩ | ⟨j, hj, hbj, hbpj⟩
        · exact Or.inr ⟨i, by simp, hb0, hbp⟩
        · exact Or.inr ⟨j, by simp [hj], hbj, hbpj⟩
      · intro j hj
        rcases List.mem_cons.mp hj with hji | hji
        · exact hji ▸ le_trans hle (le_refl _)
        · exact hcov j hji
    · by_cases heq : disruptionScore c (pyInsert temp i d) = m0 ∧
          |(i : Int) - (a : Int)| < |bp0 - (a : Int)|
      · have hstep : List.foldl (bestStep c temp d a) ⟨some m0, bp0, some b0⟩ (i :: cs) =
            List.foldl (bestStep c temp d a)
              ⟨some m0, (i : Int), some (pyInsert temp i d)⟩ cs := by
          simp [bestStep, hlt, heq]
        obtain ⟨m, bp, b, hf, hb, hle, hmem, hcov⟩ :=
          ih m0 (i : Int) (pyInsert temp i d) (heq.1)
        refine ⟨m, bp, b, hstep ▸ hf, hb, hle, ?_, ?_⟩
        · rcases hmem with ⟨hb0, hbp⟩ | ⟨j, hj, hbj, hbpj⟩
          · exact Or.inr ⟨i, by simp, hb0, hbp⟩
          · exact Or.inr ⟨j, by simp [hj], hbj, hbpj⟩
        · intro j hj
          rcases List.mem_cons.mp hj with hji | hji
          · exact hji ▸ (heq.1 ▸ hle)
          · exact hcov j hji
      · have hstep : List.foldl (bestStep c temp d a) ⟨some m0, bp0, some b0⟩ (i :: cs) =
            List.foldl (bestStep c temp d a) ⟨some m0, bp0, some b0⟩ cs := by
          simp [bestStep, hlt, heq]
        obtain ⟨m, bp, b, hf, hb, hle, hmem, hcov⟩ := ih m0 bp0 b0 h0
        refine ⟨m, bp, b, hstep ▸ hf, hb, hle, ?_, ?_⟩
        · rcases hmem with ⟨hb0, hbp⟩ | ⟨j, hj, hbj, hbpj⟩
          · exact Or.inl ⟨hb0, hbp⟩
          · exact Or.inr ⟨j, by simp [hj], hbj, hbpj⟩
        · intro j hj
          rcases List.mem_cons.mp hj with hji | hji
          · exact hji ▸ le_trans hle (not_lt.mp hlt)
          · exact hcov j hji

theorem bestCandidate_spec (c : Ctx) (temp : List String) (d : String) (a : Nat)
    (cands : List Nat) (hne : cands ≠ []) :
    ∃ m bp b,
      bestCandidate c temp d a cands = ⟨some m, bp, some b⟩ ∧
      disruptionScore c b = m ∧
      (∃ i ∈ cands, b = pyInsert temp i d ∧ bp = (i : Int)) ∧
      (∀ i ∈ cands, m ≤ disruptionScore c (pyInsert temp i d)) := by
  cases cands with
  | nil => exact absurd rfl hne
  | cons i cs =>
    have hstep : bestCandidate c temp d a (i :: cs) =
        List.foldl (bestStep c temp d a)
          ⟨some (disruptionScore c (pyInsert temp i d)), (i : Int),
            some (pyInsert temp i d)⟩ cs := by
      simp [bestCandidate, bestStep]
    obtain ⟨m, bp, b, hf, hb, hle, hmem, hcov⟩ :=
      bestFold_spec c temp d a cs (disruptionScore c (pyInsert temp i d)) (i : Int)
        (pyInsert temp i d) rfl
    refine ⟨m, bp, b, hstep ▸ hf, hb, ?_, ?_⟩
    · rcases hmem with ⟨hb0, hbp⟩ | ⟨j, hj, hbj, hbpj⟩
      · exact ⟨i, by simp, hb0, hbp⟩
      · exact ⟨j, by simp [hj], hbj, hbpj⟩
    · intro j hj
      rcases List.mem_cons.mp hj with hji | hji
      · exact hji ▸ hle
      · exact hcov j hji

theorem bestCandidate_nil (c : Ctx) (temp : List String) (d : String) (a : Nat) :
    bestCandidate c temp d a [] = ⟨none, -1, none⟩ := rfl

/-- Case split for one corrector step: either nothing changes, or the
result is an insertion of the dependent at a window index into the order
with the dependent removed. -/
theorem processDep_cases (c : Ctx) (bst : BState) (problems : List (String × String))
    (o : List String) (d : String) :
    processDep c bst problems o d = o ∨
    ∃ a, posOf? o d = some a ∧
      ∃ i ∈ depWindow bst problems o d,
        processDep c bst problems o d = pyInsert (o.eraseIdx a) i d := by
  cases hpos : posOf? o d with
  | none =>
    left
    unfold processDep
    rw [hpos]
  | some a =>
    have he : processDep c bst problems o d =
        match (bestCandidate c (o.eraseIdx a) d a (depWindow bst problems o d)).bestOrd with
        | some b => if o ≠ b then b else o
        | none => o := by
      unfold processDep
      rw [hpos]
    cases hw : depWindow bst problems o d with
    | nil =>
      left
      rw [he, hw, bestCandidate_nil]
    | cons i cs =>
      obtain ⟨m, bp, b, hbc, _, ⟨j, hj, hbj, _⟩, _⟩ :=
        bestCandidate_spec c (o.eraseIdx a) d a (i :: cs) (by simp)
      rw [he, hw, hbc]
      by_cases hob : o = b
      · left
        simp [hob]
      · right
        refine ⟨a, rfl, j, hj, ?_⟩
        simpa [hob] using hbj

/-! Claim C1: the worked scenario. -/

/-- Claim C1, counterexample: in the scenario with order [B, A, C], edge
"B requires A" and the single selected violation (B, A), the set of
moved folders produced by the corrector is not {A, B}: the corrector
proposes [A, C, B], so C moves as well. -/
theorem c1_counterexample :
    movedMods ["B", "A", "C"]
        (correctLoadOrder exABC (fun _ => false) ["B", "A", "C"] [("B", "A")])
      ≠ ({"A", "B"} : Finset String) := by decide

/-- Claim C1 (amended): in the scenario the corrector proposes
[A, C, B]; A's index 0 is less than B's index 2, and the moved set is
exactly {A, B, C} (C moves as a side effect of the distance tie-break). -/
theorem c1_amended :
    correctLoadOrder exABC (fun _ => false) ["B", "A", "C"] [("B", "A")]
      = ["A", "C", "B"] ∧
    posOf? (correctLoadOrder exABC (fun _ => false) ["B", "A", "C"] [("B", "A")]) "A"
      = some 0 ∧
    posOf? (correctLoadOrder exABC (fun _ => false) ["B", "A", "C"] [("B", "A")]) "B"
      = some 2 ∧
    movedMods ["B", "A", "C"]
        (correctLoadOrder exABC (fun _ => false) ["B", "A", "C"] [("B", "A")])
      = ({"A", "B", "C"} : Finset String) := by decide

/-! Claim C2: disruption-score monotonicity. -/

/-- Claim C2, counterexample: with edges "D requires P", "M1 requires D",
"M2 requires D", order [D, M1, M2, P] and the selected violation (D, P),
the corrector returns [M1, M2, P, D] whose disruption score 2 exceeds
the original order's score 1. -/
theorem c2_counterexample :
    disruptionScore exDMMP ["D", "M1", "M2", "P"] = 1 ∧
    correctLoadOrder exDMMP (fun _ => false) ["D", "M1", "M2", "P"] [("D", "P")]
      = ["M1", "M2", "P", "D"] ∧
    disruptionScore exDMMP
        (correctLoadOrder exDMMP (fun _ => false) ["D", "M1", "M2", "P"] [("D", "P")])
      = 2 := by decide

/-- Claim C2 (amended): each local step of the corrector is
window-optimal: for a non-empty candidate window the scan returns an
insertion of the dependent at some window index whose disruption score is
minimal among all window insertions (ties broken toward the original
index); global monotonicity against the original order does not hold. -/
theorem c2_amended (c : Ctx) (temp : List String) (d : String) (a : Nat)
    (cands : List Nat) (hne : cands ≠ []) :
    ∃ m bp b,
      bestCandidate c temp d a cands = ⟨some m, bp, some b⟩ ∧
      disruptionScore c b = m ∧
      (∃ i ∈ cands, b = pyInsert temp i d ∧ bp = (i : Int)) ∧
      (∀ i ∈ cands, m ≤ disruptionScore c (pyInsert temp i d)) :=
  bestCandidate_spec c temp d a cands hne

/-- Claim C2 (amended), witness at the counterexample scenario's first
pass window. -/
theorem c2_amended_witness :
    ∃ m bp b,
      bestCandidate exDMMP ["M1", "M2", "P"] "D" 0 [4] = ⟨some m, bp, some b⟩ ∧
      disruptionScore exDMMP b = m ∧
      (∃ i ∈ [4], b = pyInsert ["M1", "M2", "P"] i "D" ∧ bp = (i : Int)) ∧
      (∀ i ∈ [4], m ≤ disruptionScore exDMMP (pyInsert ["M1", "M2", "P"] i "D")) :=
  c2_amended exDMMP ["M1", "M2", "P"] "D" 0 [4] (by decide)

/-! Claim C3 counterexample (the amended theorem follows later). -/

/-- Claim C3, counterexample: with D under separator S1 and its provider
P under the later separator S2, the selected violation (D, P) survives
the corrector (the search window is empty, so the order is returned
unchanged and diagnostics still reports (D, P)), although the selection
is satisfiable: the order [S1, S2, P, D] has no violation at all. -/
theorem c3_counterexample :
    correctLoadOrder exSep exSepIsSep ["S1", "D", "S2", "P"] [("D", "P")]
      = ["S1", "D", "S2", "P"] ∧
    ((analyzeCurrentLoadOrder exSep
        (correctLoadOrder exSep exSepIsSep ["S1", "D", "S2", "P"] [("D", "P")])
        exSepIsSep (fun x => x = "D" || x = "P")).map
      (fun v => (v.modFolder, v.providerFolder))) = [("D", "P")] ∧
    analyzeCurrentLoadOrder exSep ["S1", "S2", "P", "D"] exSepIsSep
        (fun x => x = "D" || x = "P") = [] := by decide

/-! Claim C7 counterexample (the amended theorem follows later). -/

/-- Claim C7, counterexample: when a folder provides its own effective
requirement (folder F with id x and the edge "x requires x"),
diagnostics reports no violation for F, yet it is not the case that
every provider folder of the satisfied edge has an index smaller than
F's index (F itself has the same index), so the claimed equivalence
fails as stated. -/
theorem c7_counterexample :
    ¬ ((∀ v ∈ analyzeCurrentLoadOrder exSelf ["F"] (fun _ => false) (fun _ => true),
          v.modFolder ≠ "F") ↔
        (∀ r ∈ reqTargets exSelf "x", r.rid ≠ "" →
          getEffectiveId exSelf r.rid ∈ exSelf.installedIds →
          ∀ pf ∈ foldersOf exSelf (getEffectiveId exSelf r.rid),
          ∀ pp, lastIdxOf? ["F"] pf = some pp → pp < 0)) := by decide

/-! Claim C8: one-hop replacement lookup. -/

/-- Claim C8: the replacement lookup applies exactly one hop: a mapped id
yields its image, an unmapped id yields itself; with the chain A to B to
C the effective id of A is B (not C), and the lookup also terminates on
the cyclic map A to B to A, where the effective id of A is likewise B. -/
theorem c8_one_hop :
    (∀ c : Ctx, ∀ x y, alookup c.replMap x = some y → getEffectiveId c x = y) ∧
    (∀ c : Ctx, ∀ x, alookup c.replMap x = none → getEffectiveId c x = x) ∧
    getEffectiveId chainCtx "A" = "B" ∧
    getEffectiveId cycCtx "A" = "B" := by
  refine ⟨?_, ?_, by decide, by decide⟩
  · intro c x y h
    simp [getEffectiveId, h]
  · intro c x h
    simp [getEffectiveId, h]

/-- Claim C8, witness: the one-hop rule applied at the concrete chain. -/
theorem c8_one_hop_witness : getEffectiveId chainCtx "A" = "B" :=
  c8_one_hop.1 chainCtx "A" "B" (by decide)

/-! Claim C9: the metadata lookup. -/

/-- Claim C9, counterexample: `get_mod_data` returns no record at all
when the stop flag is set, and likewise when the database connection is
absent, so "never returns an empty/absent result" fails as stated for
every id. -/
theorem c9_counterexample :
    getModData true true none 0 0 (fun _ => FetchResult.fail "timeout") 3 "100"
      = none ∧
    getModData false false none 0 0 (fun _ => FetchResult.fail "timeout") 3 "100"
      = none := ⟨rfl, rfl⟩

theorem retryLoop_isSome (fetch : Nat → FetchResult) (mid : String) :
    ∀ (n attempt : Nat) (lastErr : Option String),
      ∃ d, retryLoop fetch false mid n attempt lastErr = some d := by
  intro n
  induction n with
  | zero => intro attempt lastErr; exact ⟨errorRecord mid lastErr, rfl⟩
  | succ k ih =>
    intro attempt lastErr
    unfold retryLoop
    simp only [if_neg (by simp : ¬ (false = true))]
    cases hf : fetch attempt with
    | ok d => exact ⟨d, rfl⟩
    | fail e => exact ih (attempt + 1) (some e)

/-- Claim C9 (amended): absent cancellation and with an open database
connection, the lookup always produces a record: a valid cache row is
returned as is, and otherwise the retry loop returns either a fetched
record or, after every attempt fails, the explicit error record; the
lookup returns nothing only when the stop flag is set or the connection
is missing. -/
theorem c9_amended :
    ∀ (row : Option (Option Int × ModData)) (days : Nat) (now : Int)
      (fetch : Nat → FetchResult) (mr : Nat) (mid : String),
      ∃ d, getModData false true row days now fetch mr mid = some d := by
  intro row days now fetch mr mid
  unfold getModData
  simp only [if_neg (by simp : ¬ (false = true)), if_neg (by simp : ¬ (true = false))]
  cases row with
  | none => exact retryLoop_isSome fetch mid mr 0 none
  | some tsd =>
    by_cases hv : isCacheEntryValid days now tsd.1 = true
    · exact ⟨tsd.2, by simp [hv]⟩
    · have : isCacheEntryValid days now tsd.1 = false := by
        cases h : isCacheEntryValid days now tsd.1
        · rfl
        · exact absurd h hv
      obtain ⟨d, hd⟩ := retryLoop_isSome fetch mid mr 0 none
      exact ⟨d, by simp [this, hd]⟩

/-! Position arithmetic for `posOf?`, `eraseIdx` and `pyInsert`. -/

theorem posOf?_of_mem {o : List String} {x : String} (h : x ∈ o) :
    ∃ j, posOf? o x = some j := by
  induction o with
  | nil => cases h
  | cons y r ih =>
    by_cases hyx : y = x
    · exact ⟨0, by simp [posOf?, hyx]⟩
    · obtain ⟨j, hj⟩ := ih (by
        rcases List.mem_cons.mp h with h1 | h1
        · exact absurd h1.symm hyx
        · exact h1)
      exact ⟨j + 1, by simp [posOf?, hyx, hj]⟩

theorem mem_of_posOf? {o : List String} {x : String} {j : Nat}
    (h : posOf? o x = some j) : x ∈ o := by
  induction o generalizing j with
  | nil => simp [posOf?] at h
  | cons y r ih =>
    by_cases hyx : y = x
    · simp [hyx]
    · simp only [posOf?, if_neg hyx, Option.map_eq_some'] at h
      obtain ⟨k, hk, _⟩ := h
      exact List.mem_cons_of_mem y (ih hk)

theorem posOf?_lt_length {o : List String} {x : String} {j : Nat}
    (h : posOf? o x = some j) : j < o.length := by
  induction o generalizing j with
  | nil => simp [posOf?] at h
  | cons y r ih =>
    by_cases hyx : y = x
    · simp [posOf?, hyx] at h
      simp [← h]
    · simp only [posOf?, if_neg hyx, Option.map_eq_some'] at h
      obtain ⟨k, hk, hkj⟩ := h
      have := ih hk
      simp [← hkj]
      omega

theorem posOf?_get {o : List String} {x : String} {j : Nat}
    (h : posOf? o x = some j) :
    ∃ hlt : j < o.length, o.get ⟨j, hlt⟩ = x := by
  induction o generalizing j with
  | nil => simp [posOf?] at h
  | cons y r ih =>
    by_cases hyx : y = x
    · simp [posOf?, hyx] at h
      exact ⟨by simp [← h], by simp [← h, hyx]⟩
    · simp only [posOf?, if_neg hyx, Option.map_eq_some'] at h
      obtain ⟨k, hk, hkj⟩ := h
      obtain ⟨hlt, hget⟩ := ih hk
      refine ⟨by simp [← hkj]; omega, ?_⟩
      subst hkj
      simpa using hget

theorem posOf?_none_of_not_mem {o : List String} {x : String} (h : x ∉ o) :
    posOf? o x = none := by
  induction o with
  | nil => rfl
  | cons y r ih =>
    have hyx : y ≠ x := fun he => h (he ▸ List.mem_cons_self y r)
    have hxr : x ∉ r := fun hm => h (List.mem_cons_of_mem y hm)
    simp [posOf?, hyx, ih hxr]

theorem lastIdxOf?_none_of_not_mem {o : List String} {x : String} (h : x ∉ o) :
    lastIdxOf? o x = none := by
  induction o with
  | nil => rfl
  | cons y r ih =>
    have hyx : y ≠ x := fun he => h (he ▸ List.mem_cons_self y r)
    have hxr : x ∉ r := fun hm => h (List.mem_cons_of_mem y hm)
    simp [lastIdxOf?, ih hxr, hyx]

theorem lastIdxOf?_eq_posOf? {o : List String} (hnd : o.Nodup) (x : String) :
    lastIdxOf? o x = posOf? o x := by
  induction o with
  | nil => rfl
  | cons y r ih =>
    obtain ⟨hyr, hr⟩ := List.nodup_cons.mp hnd
    by_cases hyx : y = x
    · subst hyx
      rw [lastIdxOf?, lastIdxOf?_none_of_not_mem hyr]
      simp [posOf?]
    · rw [lastIdxOf?, ih hr]
      cases hp : posOf? r x with
      | none => simp [posOf?, hyx, hp]
      | some k => simp [posOf?, hyx, hp]

theorem pyInsert_nil (i : Nat) (d : String) : pyInsert [] i d = [d] := by
  simp [pyInsert]

theorem pyInsert_zero (l : List String) (d : String) : pyInsert l 0 d = d :: l := by
  simp [pyInsert]

theorem pyInsert_succ_cons (y : String) (r : List String) (i : Nat) (d : String) :
    pyInsert (y :: r) (i + 1) d = y :: pyInsert r i d := by
  simp [pyInsert]

theorem pyInsert_perm (l : List String) (i : Nat) (d : String) :
    (pyInsert l i d).Perm (d :: l) := by
  unfold pyInsert
  calc (l.take i ++ d :: l.drop i).Perm (d :: (l.take i ++ l.drop i)) := List.perm_middle
    _ = d :: l := by rw [List.take_append_drop]

theorem pyInsert_length (l : List String) (i : Nat) (d : String) :
    (pyInsert l i d).length = l.length + 1 :=
  (pyInsert_perm l i d).length_eq.trans (by simp)

theorem posOf?_cons_eq (r : List String) (x : String) :
    posOf? (x :: r) x = some 0 := by
  simp [posOf?]

theorem posOf?_cons_ne {y x : String} (h : y ≠ x) (r : List String) :
    posOf? (y :: r) x = (posOf? r x).map (· + 1) := by
  simp [posOf?, h]

theorem posOf?_pyInsert_self {l : List String} {d : String} (hd : d ∉ l) (i : Nat) :
    posOf? (pyInsert l i d) d = some (min i l.length) := by
  induction l generalizing i with
  | nil => simp [pyInsert_nil, posOf?]
  | cons y r ih =>
    cases i with
    | zero => simp [pyInsert_zero, posOf?]
    | succ k =>
      have hyd : y ≠ d := fun he => hd (he ▸ List.mem_cons_self y r)
      have hdr : d ∉ r := fun hm => hd (List.mem_cons_of_mem y hm)
      rw [pyInsert_succ_cons, posOf?_cons_ne hyd, ih hdr]
      simp only [Option.map_some', Option.some.injEq, List.length_cons]
      omega

theorem posOf?_pyInsert_other {l : List String} {d x : String} (hx : x ≠ d)
    {j : Nat} (hj : posOf? l x = some j) (i : Nat) :
    posOf? (pyInsert l i d) x =
      some (if j < min i l.length then j else j + 1) := by
  induction l generalizing i j with
  | nil => simp [posOf?] at hj
  | cons y r ih =>
    cases i with
    | zero =>
      rw [pyInsert_zero, posOf?_cons_ne (Ne.symm hx), hj]
      simp
    | succ k =>
      rw [pyInsert_succ_cons]
      by_cases hyx : y = x
      · subst hyx
        rw [posOf?_cons_eq] at hj
        have hj0 : j = 0 := by simpa using hj.symm
        subst hj0
        rw [posOf?_cons_eq]
        simp only [Option.some.injEq, List.length_cons]
        split_ifs <;> omega
      · rw [posOf?_cons_ne hyx, Option.map_eq_some'] at hj
        obtain ⟨m, hm, hmj⟩ := hj
        subst hmj
        rw [posOf?_cons_ne hyx, ih hm k]
        simp only [Option.map_some', Option.some.injEq, List.length_cons]
        split_ifs <;> omega

theorem posOf?_eraseIdx {o : List String} {a : Nat} {d x : String}
    (ha : a < o.length) (hget : o.get ⟨a, ha⟩ = d) (hx : x ≠ d)
    {j : Nat} (hj : posOf? o x = some j) :
    posOf? (o.eraseIdx a) x = some (if j < a then j else j - 1) ∧ j ≠ a := by
  induction o generalizing a j with
  | nil => simp at ha
  | cons y r ih =>
    cases a with
    | zero =>
      have hyd : y = d := by simpa using hget
      have hyx : y ≠ x := fun he => hx (by rw [← he, hyd])
      rw [List.eraseIdx_cons_zero]
      rw [posOf?_cons_ne hyx, Option.map_eq_some'] at hj
      obtain ⟨m, hm, hmj⟩ := hj
      subst hmj
      exact ⟨by simp [hm], by omega⟩
    | succ b =>
      have hb : b < r.length := by simpa using ha
      have hgetr : r.get ⟨b, hb⟩ = d := by simpa using hget
      rw [List.eraseIdx_cons_succ]
      by_cases hyx : y = x
      · subst hyx
        rw [posOf?_cons_eq] at hj
        have hj0 : j = 0 := by simpa using hj.symm
        subst hj0
        exact ⟨by rw [posOf?_cons_eq]; simp, by omega⟩
      · rw [posOf?_cons_ne hyx, Option.map_eq_some'] at hj
        obtain ⟨m, hm, hmj⟩ := hj
        subst hmj
        obtain ⟨hrec, hmb⟩ := ih hb hgetr hm
        refine ⟨?_, by omega⟩
        rw [posOf?_cons_ne hyx, hrec]
        simp only [Option.map_some', Option.some.injEq]
        split_ifs <;> omega

theorem not_mem_eraseIdx_of_nodup {o : List String} (hnd : o.Nodup) {a : Nat}
    (ha : a < o.length) {d : String} (hget : o.get ⟨a, ha⟩ = d) :
    d ∉ o.eraseIdx a := by
  induction o generalizing a with
  | nil => simp at ha
  | cons y r ih =>
    obtain ⟨hyr, hr⟩ := List.nodup_cons.mp hnd
    cases a with
    | zero =>
      have hyd : y = d := by simpa using hget
      rw [List.eraseIdx_cons_zero]
      exact hyd ▸ hyr
    | succ b =>
      have hb : b < r.length := by simpa using ha
      have hgetr : r.get ⟨b, hb⟩ = d := by simpa using hget
      rw [List.eraseIdx_cons_succ]
      intro hmem
      rcases List.mem_cons.mp hmem with h1 | h1
      · exact hyr (h1 ▸ hgetr ▸ (r.get_mem b hb))
      · exact ih hr hb hgetr h1

theorem perm_cons_eraseIdx {o : List String} {a : Nat} {d : String}
    (ha : a < o.length) (hget : o.get ⟨a, ha⟩ = d) :
    o.Perm (d :: o.eraseIdx a) := by
  induction o generalizing a with
  | nil => simp at ha
  | cons y r ih =>
    cases a with
    | zero =>
      have hyd : y = d := by simpa using hget
      rw [List.eraseIdx_cons_zero, hyd]
    | succ b =>
      have hb : b < r.length := by simpa using ha
      have hgetr : r.get ⟨b, hb⟩ = d := by simpa using hget
      rw [List.eraseIdx_cons_succ]
      exact (List.Perm.cons y (ih hb hgetr)).trans (List.Perm.swap d y _)

theorem eraseIdx_length_of_lt {o : List String} {a : Nat} (ha : a < o.length) :
    (o.eraseIdx a).length = o.length - 1 := by
  rw [List.length_eraseIdx, if_pos ha]

/-! Permutation invariance of the corrector (claim C10 machinery). -/

theorem processDep_perm (c : Ctx) (bst : BState)
    (problems : List (String × String)) (o : List String) (d : String) :
    (processDep c bst problems o d).Perm o := by
  rcases processDep_cases c bst problems o d with h | ⟨a, ha, i, _, hres⟩
  · rw [h]
  · obtain ⟨hlt, hget⟩ := posOf?_get ha
    rw [hres]
    exact (pyInsert_perm (o.eraseIdx a) i d).trans (perm_cons_eraseIdx hlt hget).symm

theorem passOnce_perm (c : Ctx) (bst : BState) (problems : List (String × String))
    (movers : List String) (o : List String) :
    (passOnce c bst problems movers o).1.Perm o := by
  unfold passOnce
  suffices h : ∀ (acc : List String × Bool), acc.1.Perm o →
      (movers.foldl (fun acc d =>
        let o2 := processDep c bst problems acc.1 d
        if acc.1 ≠ o2 then (o2, true) else acc) acc).1.Perm o by
    exact h (o, false) (List.Perm.refl o)
  induction movers with
  | nil => intro acc hacc; exact hacc
  | cons d ds ih =>
    intro acc hacc
    simp only [List.foldl_cons]
    apply ih
    by_cases hne : acc.1 ≠ processDep c bst problems acc.1 d
    · simp only [if_pos hne]
      exact (processDep_perm c bst problems acc.1 d).trans hacc
    · simp only [if_neg hne]
      exact hacc

theorem correctLoop_perm (c : Ctx) (bst : BState) (problems : List (String × String))
    (movers : List String) :
    ∀ (fuel : Nat) (o : List String),
      (correctLoop c bst problems movers fuel o).Perm o := by
  intro fuel
  induction fuel with
  | zero => intro o; exact List.Perm.refl o
  | succ k ih =>
    intro o
    unfold correctLoop
    by_cases hc : (passOnce c bst problems movers o).2
    · simp only [if_pos hc]
      exact (ih _).trans (passOnce_perm c bst problems movers o)
    · simp only [if_neg hc]
      exact passOnce_perm c bst problems movers o

/-- Claim C10: at every point of the corrector's local search the working
order is a permutation of the original order: every single
remove-and-reinsert step returns a permutation of its input, and hence
the final proposed order is a permutation of the original order for
every graph, separator layout, selection and moving set. -/
theorem c10_working_order_permutation :
    (∀ (c : Ctx) (bst : BState) (problems : List (String × String))
        (o : List String) (d : String),
      (processDep c bst problems o d).Perm o) ∧
    (∀ (c : Ctx) (isSep : String → Bool) (originalOrder : List String)
        (problems : List (String × String)),
      (correctLoadOrder c isSep originalOrder problems).Perm originalOrder) :=
  ⟨processDep_perm, fun c isSep originalOrder problems =>
    correctLoop_perm c (computeBounds isSep originalOrder) problems
      (modsToMove problems) (modsToMove problems).length.succ.succ originalOrder⟩

/-! Window membership facts. -/

theorem mem_intRange {i s : Nat} {e : Int} (h : i ∈ intRange s e) :
    s ≤ i ∧ (i : Int) ≤ e := by
  unfold intRange at h
  by_cases hlt : e < (s : Int)
  · rw [if_pos hlt] at h
    cases h
  · rw [if_neg hlt] at h
    rw [List.mem_range'] at h
    obtain ⟨k, hk, hik⟩ := h
    subst hik
    constructor
    · omega
    · have he : (s : Int) ≤ e := not_lt.mp hlt
      have : (k : Int) ≤ e - (s : Int) := by
        have := Int.toNat_of_nonneg (by omega : (0 : Int) ≤ e - (s : Int))
        omega
      push_cast
      omega

theorem intRange_ne_nil {s : Nat} {e : Int} (h : (s : Int) ≤ e) :
    intRange s e ≠ [] := by
  unfold intRange
  rw [if_neg (not_lt.mpr h)]
  intro hnil
  have := congrArg List.length hnil
  simp [List.length_range'] at this

/-! No-separator characterization of the boundary scan. -/

theorem boundsFold_noSep (isSep : String → Bool) :
    ∀ (l : List String) (i : Nat) (st : BState),
      (∀ x ∈ l, isSep x = false) → st.cur = NOSEP →
      (boundsFold isSep l i st).cur = NOSEP ∧
      (boundsFold isSep l i st).bounds = st.bounds ∧
      (∀ x, (boundsFold isSep l i st).sepMap x = st.sepMap x ∨
        (boundsFold isSep l i st).sepMap x = some NOSEP) := by
  intro l
  induction l with
  | nil =>
    intro i st _ hcur
    exact ⟨hcur, rfl, fun x => Or.inl rfl⟩
  | cons y r ih =>
    intro i st hl hcur
    have hy : isSep y = false := hl y (List.mem_cons_self y r)
    have hstep : boundsStep isSep st y i =
        { st with sepMap := upd st.sepMap y (some st.cur) } := by
      unfold boundsStep
      rw [hy]
      simp
    rw [boundsFold, hstep]
    obtain ⟨h1, h2, h3⟩ := ih (i + 1) { st with sepMap := upd st.sepMap y (some st.cur) }
      (fun x hx => hl x (List.mem_cons_of_mem y hx)) hcur
    refine ⟨h1, h2, fun x => ?_⟩
    rcases h3 x with h | h
    · by_cases hxy : x = y
      · right
        rw [h]
        simp [upd, hxy, hcur]
      · left
        rw [h]
        simp [upd, hxy]
    · exact Or.inr h

theorem computeBounds_noSep (isSep : String → Bool) (order : List String)
    (hns : ∀ x ∈ order, isSep x = false) :
    (∀ x, ((computeBounds isSep order).sepMap x).getD NOSEP = NOSEP) ∧
    (computeBounds isSep order).bounds NOSEP = (0, (order.length : Int)) := by
  obtain ⟨h1, h2, h3⟩ :=
    boundsFold_noSep isSep order 0 (initBState order.length) hns rfl
  constructor
  · intro x
    unfold computeBounds
    rcases h3 x with h | h
    · simp only [h]
      rfl
    · simp only [h]
      rfl
  · unfold computeBounds
    simp only [h1, h2]
    simp [upd, initBState]

/-! The singleton-selection fix property (claim C3 machinery). -/

theorem processDep_result_insert (c : Ctx) (bst : BState)
    (problems : List (String × String)) (o : List String) (d : String) {a : Nat}
    (ha : posOf? o d = some a) (hw : depWindow bst problems o d ≠ []) :
    ∃ i ∈ depWindow bst problems o d,
      processDep c bst problems o d = pyInsert (o.eraseIdx a) i d := by
  have he : processDep c bst problems o d =
      match (bestCandidate c (o.eraseIdx a) d a (depWindow bst problems o d)).bestOrd with
      | some b => if o ≠ b then b else o
      | none => o := by
    unfold processDep
    rw [ha]
  obtain ⟨m, bp, b, hbc, _, ⟨j, hj, hbj, _⟩, _⟩ :=
    bestCandidate_spec c (o.eraseIdx a) d a (depWindow bst problems o d) hw
  rw [he, hbc]
  by_cases hob : o = b
  · subst hob
    exact ⟨j, hj, by simpa using hbj⟩
  · exact ⟨j, hj, by simpa [hob] using hbj⟩

theorem depWindow_singleton (bst : BState) (o : List String) (d p : String)
    {jp : Nat} (hjp : posOf? o p = some jp)
    (hb1 : (bst.sepMap d).getD NOSEP = NOSEP)
    (hb2 : bst.bounds NOSEP = (0, (o.length : Int))) :
    depWindow bst [(d, p)] o d = intRange (jp + 1) (o.length : Int) := by
  have hprov : (([(d, p)].filter (fun q => decide (q.1 = d))).map (fun q => q.2)) = [p] := by
    simp [List.filter_cons]
  have hlp : lastProviderPos o [p] = (jp : Int) := by
    unfold lastProviderPos
    simp only [List.foldl_cons, List.foldl_nil, hjp]
    omega
  unfold depWindow
  simp only [hprov, hlp, hb1, hb2]
  have h2 : (0 : Nat) ⊔ (((jp : Int) + 1).toNat) = jp + 1 := by omega
  rw [h2]

theorem processDep_singleton_after (c : Ctx) (bst : BState) (d p : String)
    (o : List String) (hnd : o.Nodup) (hdo : d ∈ o) (hpo : p ∈ o) (hdp : d ≠ p)
    (hb1 : (bst.sepMap d).getD NOSEP = NOSEP)
    (hb2 : bst.bounds NOSEP = (0, (o.length : Int))) :
    ordBefore (processDep c bst [(d, p)] o d) p d := by
  obtain ⟨a, ha⟩ := posOf?_of_mem hdo
  obtain ⟨jp, hjp⟩ := posOf?_of_mem hpo
  have halt : a < o.length := posOf?_lt_length ha
  have hjplt : jp < o.length := posOf?_lt_length hjp
  have hwin : depWindow bst [(d, p)] o d = intRange (jp + 1) (o.length : Int) :=
    depWindow_singleton bst o d p hjp hb1 hb2
  have hwne : depWindow bst [(d, p)] o d ≠ [] := by
    rw [hwin]
    exact intRange_ne_nil (by omega)
  obtain ⟨i, hi, hres⟩ := processDep_result_insert c bst [(d, p)] o d ha hwne
  have hibounds : jp + 1 ≤ i ∧ (i : Int) ≤ (o.length : Int) := by
    rw [hwin] at hi
    exact mem_intRange hi
  obtain ⟨hget0, hget⟩ := posOf?_get ha
  have hpd : p ≠ d := hdp.symm
  obtain ⟨hpe, hja⟩ := posOf?_eraseIdx halt hget hpd hjp
  have hdnotin : d ∉ o.eraseIdx a := not_mem_eraseIdx_of_nodup hnd halt hget
  have hlen : (o.eraseIdx a).length = o.length - 1 := eraseIdx_length_of_lt halt
  have hdd : posOf? (pyInsert (o.eraseIdx a) i d) d =
      some (min i (o.eraseIdx a).length) := posOf?_pyInsert_self hdnotin i
  have hpp : posOf? (pyInsert (o.eraseIdx a) i d) p =
      some (if (if jp < a then jp else jp - 1) < min i (o.eraseIdx a).length
        then (if jp < a then jp else jp - 1)
        else (if jp < a then jp else jp - 1) + 1) :=
    posOf?_pyInsert_other hpd hpe i
  have hsmall : (if jp < a then jp else jp - 1) < min i (o.eraseIdx a).length := by
    rw [hlen]
    have h1 : jp + 1 ≤ i := hibounds.1
    split_ifs <;> omega
  rw [hres]
  refine ⟨if jp < a then jp else jp - 1, min i (o.eraseIdx a).length, ?_, hdd, hsmall⟩
  rw [hpp, if_pos hsmall]

theorem passOnce_singleton (c : Ctx) (bst : BState) (d p : String) (o : List String) :
    (passOnce c bst [(d, p)] [d] o).1 = processDep c bst [(d, p)] o d := by
  unfold passOnce
  simp only [List.foldl_cons, List.foldl_nil]
  by_cases h : o ≠ processDep c bst [(d, p)] o d
  · simp [h]
  · simp only [if_neg h]
    exact not_ne_iff.mp h

theorem correctLoop_singleton_after (c : Ctx) (bst : BState) (d p : String)
    (N : Nat) (hb1 : (bst.sepMap d).getD NOSEP = NOSEP)
    (hb2 : bst.bounds NOSEP = (0, (N : Int))) (hdp : d ≠ p) :
    ∀ (fuel : Nat) (o : List String), o.Nodup → d ∈ o → p ∈ o → o.length = N →
      ordBefore (correctLoop c bst [(d, p)] [d] (fuel + 1) o) p d := by
  intro fuel
  induction fuel with
  | zero =>
    intro o hnd hdo hpo hlen
    unfold correctLoop
    have h1 := passOnce_singleton c bst d p o
    have h2 := processDep_singleton_after c bst d p o hnd hdo hpo hdp hb1 (hlen ▸ hb2)
    by_cases hc : (passOnce c bst [(d, p)] [d] o).2
    · simp only [if_pos hc]
      unfold correctLoop
      rw [h1]
      exact h2
    · simp only [if_neg hc]
      rw [h1]
      exact h2
  | succ k ih =>
    intro o hnd hdo hpo hlen
    unfold correctLoop
    have h1 := passOnce_singleton c bst d p o
    have h2 := processDep_singleton_after c bst d p o hnd hdo hpo hdp hb1 (hlen ▸ hb2)
    have hperm : (passOnce c bst [(d, p)] [d] o).1.Perm o :=
      passOnce_perm c bst [(d, p)] [d] o
    by_cases hc : (passOnce c bst [(d, p)] [d] o).2
    · simp only [if_pos hc]
      exact ih (passOnce c bst [(d, p)] [d] o).1 (hperm.symm.nodup hnd)
        (hperm.mem_iff.mpr hdo) (hperm.mem_iff.mpr hpo)
        (hperm.length_eq.trans hlen)
    · simp only [if_neg hc]
      rw [h1]
      exact h2

/-! Membership characterization of the diagnostics output. -/

theorem mem_analyze_iff (c : Ctx) (order : List String) (isSep hasId : String → Bool)
    (v : Violation) :
    v ∈ analyzeCurrentLoadOrder c order isSep hasId ↔
    ∃ fd, fd ∈ c.folderToId ∧ fd.2 ∉ c.ignoreReq ∧
      ∃ dp, lastIdxOf? order fd.1 = some dp ∧
      ∃ r, r ∈ reqTargets c fd.2 ∧ r.rid ≠ "" ∧
        getEffectiveId c r.rid ∈ c.installedIds ∧
        ∃ pf, pf ∈ foldersOf c (getEffectiveId c r.rid) ∧
        ∃ pp, lastIdxOf? order pf = some pp ∧ dp < pp ∧
          v = ⟨fd.1, fd.2, pf, getEffectiveId c r.rid, r.notes,
                (alookup (getModSeparators order isSep hasId) fd.1).getD UNKNOWN⟩ := by
  simp only [analyzeCurrentLoadOrder, List.mem_flatMap]
  constructor
  · rintro ⟨fd, hfd, hv⟩
    refine ⟨fd, hfd, ?_⟩
    by_cases h1 : fd.2 ∈ c.ignoreReq
    · simp [h1] at hv
    · rw [if_neg h1] at hv
      refine ⟨h1, ?_⟩
      cases h2 : lastIdxOf? order fd.1 with
      | none =>
        rw [h2] at hv
        simp at hv
      | some dp =>
        rw [h2] at hv
        simp only [List.mem_flatMap] at hv
        obtain ⟨r, hr, hv⟩ := hv
        by_cases h3 : r.rid = ""
        · simp [h3] at hv
        · rw [if_neg h3] at hv
          by_cases h4 : getEffectiveId c r.rid ∈ c.installedIds
          · rw [if_pos h4] at hv
            simp only [List.mem_filterMap] at hv
            obtain ⟨pf, hpf, hv⟩ := hv
            cases h5 : lastIdxOf? order pf with
            | none =>
              rw [h5] at hv
              simp at hv
            | some pp =>
              rw [h5] at hv
              by_cases h6 : dp < pp
              · simp only [h6, if_true] at hv
                refine ⟨dp, rfl, r, hr, h3, h4, pf, hpf, pp, h5, h6, ?_⟩
                exact (Option.some.inj hv).symm
              · simp [h6] at hv
          · rw [if_neg h4] at hv
            simp at hv
  · rintro ⟨fd, hfd, h1, dp, h2, r, hr, h3, h4, pf, hpf, pp, h5, h6, hveq⟩
    refine ⟨fd, hfd, ?_⟩
    rw [if_neg h1, h2]
    simp only [List.mem_flatMap]
    refine ⟨r, hr, ?_⟩
    rw [if_neg h3, if_pos h4]
    simp only [List.mem_filterMap]
    refine ⟨pf, hpf, ?_⟩
    rw [h5]
    simp only [h6, if_true]
    rw [hveq]

theorem analyze_mem_pos (c : Ctx) (order : List String) (isSep hasId : String → Bool)
    (v : Violation) (hv : v ∈ analyzeCurrentLoadOrder c order isSep hasId) :
    ∃ dp pp, lastIdxOf? order v.modFolder = some dp ∧
      lastIdxOf? order v.providerFolder = some pp ∧ dp < pp := by
  rw [mem_analyze_iff] at hv
  obtain ⟨fd, _, _, dp, h2, r, _, _, _, pf, _, pp, h5, h6, hveq⟩ := hv
  subst hveq
  exact ⟨dp, pp, h2, h5, h6⟩

/-- Claim C3 (amended): the corrector fixes a singleton selection when no
separator caps the window: for every graph, every duplicate-free order
containing the two distinct folders d and p with no separators, running
the corrector on the single selected violation (d, p) yields a proposed
order in which p precedes d, and re-running the diagnostics on the
proposed order reports no violation with dependent d and provider p.
When a selected provider lies beyond the dependent's separator-group
end, the window is empty and the violation can survive. -/
theorem c3_amended (c : Ctx) (isSep hasId : String → Bool) (orig : List String)
    (d p : String) (hnd : orig.Nodup) (hdo : d ∈ orig) (hpo : p ∈ orig)
    (hdp : d ≠ p) (hns : ∀ x ∈ orig, isSep x = false) :
    ordBefore (correctLoadOrder c isSep orig [(d, p)]) p d ∧
    ∀ v ∈ analyzeCurrentLoadOrder c (correctLoadOrder c isSep orig [(d, p)])
        isSep hasId,
      ¬ (v.modFolder = d ∧ v.providerFolder = p) := by
  obtain ⟨hb1, hb2⟩ := computeBounds_noSep isSep orig hns
  have hmov : modsToMove [(d, p)] = [d] := by
    simp [modsToMove]
  have hcl : correctLoadOrder c isSep orig [(d, p)] =
      correctLoop c (computeBounds isSep orig) [(d, p)] [d] 3 orig := by
    unfold correctLoadOrder
    rw [hmov]
    rfl
  have hord : ordBefore (correctLoadOrder c isSep orig [(d, p)]) p d := by
    rw [hcl]
    exact correctLoop_singleton_after c (computeBounds isSep orig) d p orig.length
      (hb1 d) hb2 hdp 2 orig hnd hdo hpo rfl
  refine ⟨hord, ?_⟩
  rintro v hv ⟨hvd, hvp⟩
  have hperm : (correctLoadOrder c isSep orig [(d, p)]).Perm orig := by
    rw [hcl]
    exact correctLoop_perm c (computeBounds isSep orig) [(d, p)] [d] 3 orig
  have hndr : (correctLoadOrder c isSep orig [(d, p)]).Nodup := hperm.symm.nodup hnd
  obtain ⟨dp2, pp2, hdp2, hpp2, hlt⟩ :=
    analyze_mem_pos c (correctLoadOrder c isSep orig [(d, p)]) isSep hasId v hv
  rw [hvd, lastIdxOf?_eq_posOf? hndr] at hdp2
  rw [hvp, lastIdxOf?_eq_posOf? hndr] at hpp2
  obtain ⟨jp, jd, hjp, hjd, hjlt⟩ := hord
  rw [hjd] at hdp2
  rw [hjp] at hpp2
  have e1 : dp2 = jd := by simpa using hdp2.symm
  have e2 : pp2 = jp := by simpa using hpp2.symm
  omega

/-- Claim C3 (amended), witness at the worked example scenario. -/
theorem c3_amended_witness :
    ordBefore (correctLoadOrder exABC (fun _ => false) ["B", "A", "C"] [("B", "A")])
      "A" "B" ∧
    ∀ v ∈ analyzeCurrentLoadOrder exABC
        (correctLoadOrder exABC (fun _ => false) ["B", "A", "C"] [("B", "A")])
        (fun _ => false) (fun _ => true),
      ¬ (v.modFolder = "B" ∧ v.providerFolder = "A") :=
  c3_amended exABC (fun _ => false) (fun _ => true) ["B", "A", "C"] "B" "A"
    (by decide) (by decide) (by decide) (by decide) (by decide)

/-! Claim C7 (amended). -/

theorem assoc_unique_of_keys_nodup {β : Type} :
    ∀ {l : List (String × β)}, (l.map (fun q => q.1)).Nodup →
      ∀ {a b : String × β}, a ∈ l → b ∈ l → a.1 = b.1 → a = b := by
  intro l
  induction l with
  | nil => intro _ a b ha; cases ha
  | cons y r ih =>
    intro hnd a b ha hb hab
    rw [List.map_cons, List.nodup_cons] at hnd
    rcases List.mem_cons.mp ha with ha1 | ha1 <;>
      rcases List.mem_cons.mp hb with hb1 | hb1
    · rw [ha1, hb1]
    · exfalso
      apply hnd.1
      have hby : b.1 = y.1 := by
        rw [← ha1]
        exact hab.symm
      rw [← hby]
      exact List.mem_map_of_mem (fun q => q.1) hb1
    · exfalso
      apply hnd.1
      have hay : a.1 = y.1 := by
        rw [← hb1]
        exact hab
      rw [← hay]
      exact List.mem_map_of_mem (fun q => q.1) ha1
    · exact ih hnd.2 ha1 hb1 hab

/-- Claim C7 (amended): for every installed dependent folder with an id
outside the ignore-requirements-of set and an index in the current
order, diagnostics reports no violation for it if and only if no
provider folder of any of its satisfied requirement edges has a current
index greater than the dependent's (rather than strictly smaller: the
dependent itself may provide its own effective requirement, in which
case the indices are equal); and conversely, every provider folder
positioned after the dependent on a satisfied edge appears as a
violation. -/
theorem c7_amended (c : Ctx) (order : List String) (isSep hasId : String → Bool)
    (depF depId : String) (dp : Nat)
    (hk : (depF, depId) ∈ c.folderToId) (hnodup : (ftiKeys c).Nodup)
    (hni : depId ∉ c.ignoreReq) (hdp : lastIdxOf? order depF = some dp) :
    ((∀ v ∈ analyzeCurrentLoadOrder c order isSep hasId, v.modFolder ≠ depF) ↔
      (∀ r ∈ reqTargets c depId, r.rid ≠ "" →
        getEffectiveId c r.rid ∈ c.installedIds →
        ∀ pf ∈ foldersOf c (getEffectiveId c r.rid),
        ∀ pp, lastIdxOf? order pf = some pp → ¬ dp < pp)) ∧
    (∀ r ∈ reqTargets c depId, r.rid ≠ "" →
      getEffectiveId c r.rid ∈ c.installedIds →
      ∀ pf ∈ foldersOf c (getEffectiveId c r.rid),
      ∀ pp, lastIdxOf? order pf = some pp → dp < pp →
        ∃ v ∈ analyzeCurrentLoadOrder c order isSep hasId,
          v.modFolder = depF ∧ v.providerFolder = pf) := by
  have hB : ∀ r ∈ reqTargets c depId, r.rid ≠ "" →
      getEffectiveId c r.rid ∈ c.installedIds →
      ∀ pf ∈ foldersOf c (getEffectiveId c r.rid),
      ∀ pp, lastIdxOf? order pf = some pp → dp < pp →
        ∃ v ∈ analyzeCurrentLoadOrder c order isSep hasId,
          v.modFolder = depF ∧ v.providerFolder = pf := by
    intro r hr h3 h4 pf hpf pp h5 h6
    refine ⟨⟨depF, depId, pf, getEffectiveId c r.rid, r.notes,
      (alookup (getModSeparators order isSep hasId) depF).getD UNKNOWN⟩, ?_, rfl, rfl⟩
    rw [mem_analyze_iff]
    exact ⟨(depF, depId), hk, hni, dp, hdp, r, hr, h3, h4, pf, hpf, pp, h5, h6, rfl⟩
  refine ⟨⟨?_, ?_⟩, hB⟩
  · intro hL r hr h3 h4 pf hpf pp h5 h6
    obtain ⟨v, hv, hm, _⟩ := hB r hr h3 h4 pf hpf pp h5 h6
    exact hL v hv hm
  · intro hR v hv hm
    rw [mem_analyze_iff] at hv
    obtain ⟨⟨f1, f2⟩, hfd, h1, dp2, h2, r, hr, h3, h4, pf, hpf, pp, h5, h6, hveq⟩ := hv
    have hf1 : f1 = depF := by
      rw [hveq] at hm
      exact hm
    subst hf1
    have hfdeq : ((f1, f2) : String × String) = (f1, depId) :=
      assoc_unique_of_keys_nodup hnodup hfd hk rfl
    have hf2 : f2 = depId := by
      have := congrArg Prod.snd hfdeq
      simpa using this
    subst hf2
    have h2b : lastIdxOf? order f1 = some dp2 := h2
    rw [hdp] at h2b
    have hdpeq : dp2 = dp := by simpa using h2b.symm
    subst hdpeq
    exact hR r hr h3 h4 pf hpf pp h5 h6

/-- Claim C7 (amended), witness at the worked example scenario with
order [B, A, C]: B (index 0) has the satisfied edge requiring A (index
1), so the violation (B, A) must be reported. -/
theorem c7_amended_witness :
    ((∀ v ∈ analyzeCurrentLoadOrder exABC ["B", "A", "C"] (fun _ => false)
        (fun _ => true), v.modFolder ≠ "B") ↔
      (∀ r ∈ reqTargets exABC "b", r.rid ≠ "" →
        getEffectiveId exABC r.rid ∈ exABC.installedIds →
        ∀ pf ∈ foldersOf exABC (getEffectiveId exABC r.rid),
        ∀ pp, lastIdxOf? ["B", "A", "C"] pf = some pp → ¬ 0 < pp)) ∧
    (∀ r ∈ reqTargets exABC "b", r.rid ≠ "" →
      getEffectiveId exABC r.rid ∈ exABC.installedIds →
      ∀ pf ∈ foldersOf exABC (getEffectiveId exABC r.rid),
      ∀ pp, lastIdxOf? ["B", "A", "C"] pf = some pp → 0 < pp →
        ∃ v ∈ analyzeCurrentLoadOrder exABC ["B", "A", "C"] (fun _ => false)
            (fun _ => true),
          v.modFolder = "B" ∧ v.providerFolder = pf) :=
  c7_amended exABC ["B", "A", "C"] (fun _ => false) (fun _ => true) "B" "b" 0
    (by decide) (by decide) (by decide) (by decide)

/-! Lemmas for the topological sorter. -/

theorem keyLt_trans {a b c : Nat × Nat × String} (h1 : keyLt a b) (h2 : keyLt b c) :
    keyLt a c := by
  rcases h1 with h1 | ⟨e1, h1⟩ <;> rcases h2 with h2 | ⟨e2, h2⟩
  · exact Or.inl (lt_trans h1 h2)
  · exact Or.inl (e2 ▸ h1)
  · exact Or.inl (e1 ▸ h2)
  · refine Or.inr ⟨e1.trans e2, ?_⟩
    rcases h1 with h1 | ⟨f1, h1⟩ <;> rcases h2 with h2 | ⟨f2, h2⟩
    · exact Or.inl (lt_trans h1 h2)
    · exact Or.inl (f2 ▸ h1)
    · exact Or.inl (f1 ▸ h2)
    · exact Or.inr ⟨f1.trans f2, lt_trans h1 h2⟩

theorem keyLt_irrefl (a : Nat × Nat × String) : ¬ keyLt a a := by
  unfold keyLt
  simp

theorem minKey_mem : ∀ {q : List (Nat × Nat × String)} {m},
    minKey q = some m → m ∈ q := by
  intro q
  induction q with
  | nil => intro m h; simp [minKey] at h
  | cons k r ih =>
    intro m h
    rw [minKey] at h
    cases hr : minKey r with
    | none =>
      rw [hr] at h
      simp at h
      simp [h]
    | some m2 =>
      rw [hr] at h
      simp only [Option.some.injEq] at h
      by_cases hlt : keyLt m2 k
      · rw [if_pos hlt] at h
        exact List.mem_cons_of_mem k (ih (h ▸ hr))
      · rw [if_neg hlt] at h
        simp [h]

theorem minKey_none_iff {q : List (Nat × Nat × String)} :
    minKey q = none ↔ q = [] := by
  cases q with
  | nil => simp [minKey]
  | cons k r => simp [minKey]

theorem popMin_some {q : List (Nat × Nat × String)} {k q2}
    (h : popMin q = some (k, q2)) : k ∈ q ∧ q2 = q.erase k := by
  unfold popMin at h
  cases hm : minKey q with
  | none => rw [hm] at h; cases h
  | some m =>
    rw [hm] at h
    simp only [Option.some.injEq, Prod.mk.injEq] at h
    exact ⟨h.1 ▸ minKey_mem hm, h.2.symm.trans (by rw [h.1])⟩

theorem popMin_none {q : List (Nat × Nat × String)} (h : popMin q = none) :
    q = [] := by
  unfold popMin at h
  cases hm : minKey q with
  | none => exact minKey_none_iff.mp hm
  | some m => rw [hm] at h; cases h

theorem argminKey_spec (t : TopoIn) (x : String) (xs : List String) :
    argminKey t x xs ∈ x :: xs ∧
    ∀ f ∈ x :: xs, ¬ keyLt (keyOf t f) (keyOf t (argminKey t x xs)) := by
  unfold argminKey
  suffices h : ∀ (l : List String) (acc : String) (seen : List String),
      acc ∈ seen → (∀ f ∈ seen, ¬ keyLt (keyOf t f) (keyOf t acc)) →
      (l.foldl (fun acc y => if keyLt (keyOf t y) (keyOf t acc) then y else acc) acc)
        ∈ seen ++ l ∧
      ∀ f ∈ seen ++ l,
        ¬ keyLt (keyOf t f)
          (keyOf t (l.foldl (fun acc y =>
            if keyLt (keyOf t y) (keyOf t acc) then y else acc) acc)) by
    have := h xs x [x] (by simp) (by
      intro f hf
      simp at hf
      subst hf
      exact keyLt_irrefl _)
    simpa using this
  intro l
  induction l with
  | nil =>
    intro acc seen hmem hmin
    simpa using ⟨hmem, hmin⟩
  | cons y ys ih =>
    intro acc seen hmem hmin
    simp only [List.foldl_cons]
    by_cases hlt : keyLt (keyOf t y) (keyOf t acc)
    · rw [if_pos hlt]
      have h2 := ih y (seen ++ [y]) (by simp)
        (by
          intro f hf
          rcases List.mem_append.mp hf with hf | hf
          · intro hk
            exact hmin f hf (keyLt_trans hk hlt)
          · simp at hf
            subst hf
            exact keyLt_irrefl _)
      refine ⟨by simpa using h2.1, ?_⟩
      intro f hf
      apply h2.2
      simp at hf ⊢
      tauto
    · rw [if_neg hlt]
      have h2 := ih acc (seen ++ [y]) (by simp [hmem])
        (by
          intro f hf
          rcases List.mem_append.mp hf with hf | hf
          · exact hmin f hf
          · simp at hf
            subst hf
            exact hlt)
      refine ⟨by simpa using h2.1, ?_⟩
      intro f hf
      apply h2.2
      simp at hf ⊢
      tauto

theorem mem_stuckNodes {keys : List String} {deg : String → Nat}
    {sorted : List String} {f : String} :
    f ∈ stuckNodes keys deg sorted ↔ f ∈ keys ∧ 0 < deg f ∧ f ∉ sorted := by
  unfold stuckNodes
  rw [List.mem_filter]
  simp [and_assoc]

theorem posOf?_append_left {s : List String} {x : String} {j : Nat}
    (h : posOf? s x = some j) (l : List String) :
    posOf? (s ++ l) x = some j := by
  induction s generalizing j with
  | nil => simp [posOf?] at h
  | cons y r ih =>
    by_cases hyx : y = x
    · subst hyx
      rw [posOf?_cons_eq] at h
      rw [List.cons_append, posOf?_cons_eq]
      exact h
    · rw [posOf?_cons_ne hyx, Option.map_eq_some'] at h
      obtain ⟨m, hm, hmj⟩ := h
      rw [List.cons_append, posOf?_cons_ne hyx, ih hm]
      simp [hmj]

theorem posOf?_append_right {s : List String} {x : String} (h : x ∉ s)
    (l : List String) :
    posOf? (s ++ l) x = (posOf? l x).map (· + s.length) := by
  induction s with
  | nil => simp
  | cons y r ih =>
    have hyx : y ≠ x := fun he => h (he ▸ List.mem_cons_self y r)
    have hxr : x ∉ r := fun hm => h (List.mem_cons_of_mem y hm)
    rw [List.cons_append, posOf?_cons_ne hyx, ih hxr]
    cases posOf? l x with
    | none => rfl
    | some j =>
      simp only [Option.map_some', Option.some.injEq, List.length_cons]
      omega

theorem ordBefore_append {s : List String} {a b : String}
    (h : ordBefore s a b) (l : List String) : ordBefore (s ++ l) a b := by
  obtain ⟨ja, jb, hja, hjb, hlt⟩ := h
  exact ⟨ja, jb, posOf?_append_left hja l, posOf?_append_left hjb l, hlt⟩

theorem nodup_subset_length {l keys : List String} (hl : l.Nodup)
    (hsub : ∀ x ∈ l, x ∈ keys) : l.length ≤ keys.length := by
  calc l.length = l.toFinset.card := (List.toFinset_card_of_nodup hl).symm
    _ ≤ keys.toFinset.card := by
        apply Finset.card_le_card
        intro a ha
        rw [List.mem_toFinset] at ha
        rw [List.mem_toFinset]
        exact hsub a ha
    _ ≤ keys.length := List.toFinset_card_le keys

theorem perm_of_nodup_subset_length {sorted keys : List String}
    (hs : sorted.Nodup) (hk : keys.Nodup) (hsub : ∀ x ∈ sorted, x ∈ keys)
    (hlen : keys.length ≤ sorted.length) : sorted.Perm keys := by
  rw [List.perm_ext_iff_of_nodup hs hk]
  intro a
  constructor
  · exact hsub a
  · intro ha
    by_contra hna
    have hsub2 : ∀ x ∈ sorted, x ∈ keys.erase a := by
      intro x hx
      have hxa : x ≠ a := by
        intro he
        rw [he] at hx
        exact hna hx
      rw [List.mem_erase_of_ne hxa]
      exact hsub x hx
    have := nodup_subset_length hs hsub2
    rw [List.length_erase_of_mem ha] at this
    have hpos : 0 < keys.length := List.length_pos_of_mem ha
    omega

theorem mem_adjOf {E : List (String × String)} {u v : String} :
    v ∈ adjOf E u ↔ (u, v) ∈ E := by
  unfold adjOf
  simp only [List.mem_map, List.mem_filter, decide_eq_true_eq]
  constructor
  · rintro ⟨e, ⟨he, h1⟩, h2⟩
    have : e = (u, v) := by
      cases e
      simp at h1 h2
      simp [h1, h2]
    exact this ▸ he
  · intro h
    exact ⟨(u, v), ⟨h, rfl⟩, rfl⟩

theorem count_adjOf (E : List (String × String)) (u v : String) :
    (adjOf E u).count v =
      E.countP (fun e => decide (e.1 = u) && decide (e.2 = v)) := by
  induction E with
  | nil => rfl
  | cons e r ih =>
    rw [List.countP_cons]
    unfold adjOf at ih ⊢
    by_cases h1 : e.1 = u
    · have hf : List.filter (fun e => decide (e.1 = u)) (e :: r) =
          e :: List.filter (fun e => decide (e.1 = u)) r := by
        rw [List.filter_cons]
        simp [h1]
      rw [hf, List.map_cons]
      by_cases h2 : e.2 = v
      · rw [h2, List.count_cons_self, ih]
        simp [h1, h2]
      · rw [List.count_cons_of_ne (fun he => h2 he.symm), ih]
        simp [h1, h2]
    · have hf : List.filter (fun e => decide (e.1 = u)) (e :: r) =
          List.filter (fun e => decide (e.1 = u)) r := by
        rw [List.filter_cons]
        simp [h1]
      rw [hf, ih]
      simp [h1]

theorem countP_split_notmem (E : List (String × String)) (sorted : List String)
    (u v : String) (hu : u ∉ sorted) :
    E.countP (fun e => decide (e.2 = v) && decide (e.1 ∉ sorted)) =
      E.countP (fun e => decide (e.2 = v) && decide (e.1 ∉ sorted ++ [u]))
      + E.countP (fun e => decide (e.1 = u) && decide (e.2 = v)) := by
  induction E with
  | nil => rfl
  | cons e r ih =>
    rw [List.countP_cons, List.countP_cons, List.countP_cons, ih]
    simp only [Bool.and_eq_true, decide_eq_true_eq]
    have hBiff : (e.1 ∈ sorted ++ [u]) ↔ (e.1 ∈ sorted ∨ e.1 = u) := by
      simp [List.mem_append]
    by_cases h2 : e.2 = v
    · by_cases h1 : e.1 = u
      · have h3 : e.1 ∉ sorted := by
          rw [h1]
          exact hu
        rw [if_pos ⟨h2, h3⟩, if_neg (fun hB => hB.2 (hBiff.mpr (Or.inr h1))),
          if_pos ⟨h1, h2⟩]
        omega
      · by_cases h3 : e.1 ∈ sorted
        · rw [if_neg (fun hA => hA.2 h3),
            if_neg (fun hB => hB.2 (hBiff.mpr (Or.inl h3))),
            if_neg (fun hC => h1 hC.1)]
          omega
        · rw [if_pos ⟨h2, h3⟩,
            if_pos ⟨h2, fun hm => (hBiff.mp hm).elim h3 h1⟩,
            if_neg (fun hC => h1 hC.1)]
          omega
    · rw [if_neg (fun hA => h2 hA.1), if_neg (fun hB => h2 hB.1),
        if_neg (fun hC => h2 hC.2)]
      omega

theorem relax_unfold_cons (t : TopoIn) (v : String) (rest : List String)
    (deg : String → Nat) (q : List (Nat × Nat × String)) :
    relax t (v :: rest) deg q =
      if 0 < deg v then
        if deg v - 1 = 0 then
          relax t rest (upd deg v (deg v - 1)) (q ++ [keyOf t v])
        else relax t rest (upd deg v (deg v - 1)) q
      else relax t rest deg q := by
  unfold relax
  rw [List.foldl_cons]
  by_cases h1 : 0 < deg v
  · rw [if_pos h1]
    by_cases h2 : deg v - 1 = 0
    · rw [if_pos h2]
      simp only [h1, if_true, h2]
    · rw [if_neg h2]
      simp only [h1, if_true, h2]
      rfl
  · rw [if_neg h1]
    simp only [h1, if_false]

theorem relax_spec (t : TopoIn) :
    ∀ (adjList : List String) (deg : String → Nat)
      (q : List (Nat × Nat × String)),
      ∃ push : List String,
        (relax t adjList deg q).2 = q ++ push.map (keyOf t) ∧
        push.Nodup ∧
        (∀ v, (relax t adjList deg q).1 v ≤ deg v) ∧
        (∀ v ∈ push, v ∈ adjList ∧ 0 < deg v ∧ (relax t adjList deg q).1 v = 0) ∧
        (∀ v, 0 < deg v → (relax t adjList deg q).1 v = 0 → v ∈ push) := by
  intro adjList
  induction adjList with
  | nil =>
    intro deg q
    exact ⟨[], by simp [relax], by simp, fun v => le_refl _, by simp, by
      intro v h1 h2
      unfold relax at h2
      simp at h2
      omega⟩
  | cons v0 rest ih =>
    intro deg q
    rw [relax_unfold_cons]
    by_cases h1 : 0 < deg v0
    · rw [if_pos h1]
      by_cases h2 : deg v0 - 1 = 0
      · rw [if_pos h2]
        obtain ⟨push, hq, hnd, hle, hmem, hcomp⟩ :=
          ih (upd deg v0 (deg v0 - 1)) (q ++ [keyOf t v0])
        refine ⟨v0 :: push, ?_, ?_, ?_, ?_, ?_⟩
        · rw [hq]
          simp
        · rw [List.nodup_cons]
          refine ⟨fun hm => ?_, hnd⟩
          have := (hmem v0 hm).2.1
          simp [upd] at this
          omega
        · intro v
          have := hle v
          by_cases hv : v = v0
          · subst hv
            simp [upd] at this
            omega
          · simp [upd, hv] at this
            exact this
        · intro v hv
          rcases List.mem_cons.mp hv with hv | hv
          · subst hv
            refine ⟨List.mem_cons_self _ _, h1, ?_⟩
            have := hle v
            simp [upd] at this
            omega
          · obtain ⟨ha, hb, hc⟩ := hmem v hv
            have hvne : v ≠ v0 := by
              intro he
              subst he
              simp [upd] at hb
              omega
            refine ⟨List.mem_cons_of_mem _ ha, ?_, hc⟩
            simpa [upd, hvne] using hb
        · intro v hv hz
          by_cases hvv : v = v0
          · simp [hvv]
          · refine List.mem_cons_of_mem _ (hcomp v ?_ hz)
            simpa [upd, hvv] using hv
      · rw [if_neg h2]
        obtain ⟨push, hq, hnd, hle, hmem, hcomp⟩ := ih (upd deg v0 (deg v0 - 1)) q
        refine ⟨push, hq, hnd, ?_, ?_, ?_⟩
        · intro v
          have := hle v
          by_cases hv : v = v0
          · subst hv
            simp [upd] at this
            omega
          · simpa [upd, hv] using this
        · intro v hv
          obtain ⟨ha, hb, hc⟩ := hmem v hv
          by_cases hvv : v = v0
          · subst hvv
            exact ⟨List.mem_cons_self _ _, h1, hc⟩
          · refine ⟨List.mem_cons_of_mem _ ha, ?_, hc⟩
            simpa [upd, hvv] using hb
        · intro v hv hz
          by_cases hvv : v = v0
          · subst hvv
            exact hcomp v (by simp [upd]; omega) hz
          · exact hcomp v (by simpa [upd, hvv] using hv) hz
    · rw [if_neg h1]
      obtain ⟨push, hq, hnd, hle, hmem, hcomp⟩ := ih deg q
      refine ⟨push, hq, hnd, hle, ?_, ?_⟩
      · intro v hv
        obtain ⟨ha, hb, hc⟩ := hmem v hv
        exact ⟨List.mem_cons_of_mem _ ha, hb, hc⟩
      · intro v hv hz
        exact hcomp v hv hz

theorem relax_exact (t : TopoIn) :
    ∀ (adjList : List String) (deg : String → Nat)
      (q : List (Nat × Nat × String)) (target : String → Nat),
      (∀ v, deg v = target v + adjList.count v) →
      ∀ v, (relax t adjList deg q).1 v = target v := by
  intro adjList
  induction adjList with
  | nil =>
    intro deg q target h v
    have := h v
    simp at this
    simpa [relax] using this
  | cons v0 rest ih =>
    intro deg q target h
    have h0 : 0 < deg v0 := by
      have := h v0
      rw [List.count_cons_self] at this
      omega
    have hstep : ∀ v, upd deg v0 (deg v0 - 1) v = target v + rest.count v := by
      intro v
      by_cases hv : v = v0
      · subst hv
        have := h v
        rw [List.count_cons_self] at this
        simp [upd]
        omega
      · have := h v
        rw [List.count_cons_of_ne hv rest] at this
        simp [upd, hv]
        exact this
    rw [relax_unfold_cons, if_pos h0]
    by_cases h2 : deg v0 - 1 = 0
    · rw [if_pos h2]
      exact ih _ _ target hstep
    · rw [if_neg h2]
      exact ih _ _ target hstep

theorem keyOf_name (t : TopoIn) (f : String) : (keyOf t f).2.2 = f := rfl

theorem names_map_keyOf (t : TopoIn) (l : List String) :
    (l.map (keyOf t)).map (fun k => k.2.2) = l := by
  induction l with
  | nil => rfl
  | cons x r ih => simp [ih, keyOf_name]

theorem topoLoop_done (t : TopoIn) (E : List (String × String)) (keys : List String)
    (fuel : Nat) (deg : String → Nat) (q : List (Nat × Nat × String))
    (sorted breakers : List String) (h : ¬ sorted.length < keys.length) :
    topoLoop t E keys (fuel + 1) deg q sorted breakers = (sorted, breakers) := by
  unfold topoLoop
  rw [if_neg h]

theorem topoLoop_pop (t : TopoIn) (E : List (String × String)) (keys : List String)
    (fuel : Nat) (deg : String → Nat) (q : List (Nat × Nat × String))
    (sorted breakers : List String) {k : Nat × Nat × String}
    {q2 : List (Nat × Nat × String)}
    (h : sorted.length < keys.length) (hpop : popMin q = some (k, q2))
    (hks : k.2.2 ∉ sorted) :
    topoLoop t E keys (fuel + 1) deg q sorted breakers =
      topoLoop t E keys fuel (relax t (adjOf E k.2.2) deg q2).1
        (relax t (adjOf E k.2.2) deg q2).2 (sorted ++ [k.2.2]) breakers := by
  conv_lhs => unfold topoLoop
  rw [if_pos h, hpop]
  simp only [if_neg hks]

theorem topoLoop_stuckEmpty (t : TopoIn) (E : List (String × String))
    (keys : List String) (fuel : Nat) (deg : String → Nat)
    (q : List (Nat × Nat × String)) (sorted breakers : List String)
    (h : sorted.length < keys.length) (hpop : popMin q = none)
    (hstuck : stuckNodes keys deg sorted = []) :
    topoLoop t E keys (fuel + 1) deg q sorted breakers = (sorted, breakers) := by
  conv_lhs => unfold topoLoop
  rw [if_pos h, hpop]
  simp only [hstuck]

theorem topoLoop_break (t : TopoIn) (E : List (String × String))
    (keys : List String) (fuel : Nat) (deg : String → Nat)
    (q : List (Nat × Nat × String)) (sorted breakers : List String)
    {r0 : String} {rs : List String}
    (h : sorted.length < keys.length) (hpop : popMin q = none)
    (hstuck : stuckNodes keys deg sorted = r0 :: rs) :
    topoLoop t E keys (fuel + 1) deg q sorted breakers =
      topoLoop t E keys fuel (upd deg (argminKey t r0 rs) 0)
        (q ++ [keyOf t (argminKey t r0 rs)]) sorted
        (breakers ++ [argminKey t r0 rs]) := by
  conv_lhs => unfold topoLoop
  rw [if_pos h, hpop]
  simp only [hstuck]

theorem topoLoop_main (t : TopoIn) (E : List (String × String)) (keys : List String)
    (hkeys : keys.Nodup) (hE2 : ∀ e ∈ E, e.2 ∈ keys) :
    ∀ (fuel : Nat) (deg : String → Nat) (q : List (Nat × Nat × String))
      (sorted breakers : List String),
      sorted.Nodup →
      (∀ f ∈ sorted, f ∈ keys) →
      (∀ k ∈ q, k = keyOf t k.2.2 ∧ k.2.2 ∈ keys ∧ k.2.2 ∉ sorted ∧ deg k.2.2 = 0) →
      (q.map (fun k => k.2.2)).Nodup →
      (∀ f ∈ keys, f ∉ sorted → (∀ k ∈ q, k.2.2 ≠ f) → 0 < deg f) →
      (∀ f ∈ sorted, deg f = 0) →
      2 * (keys.length - sorted.length) < fuel + q.length →
      (topoLoop t E keys fuel deg q sorted breakers).1.Perm keys ∧
      (∃ tail, (topoLoop t E keys fuel deg q sorted breakers).2 = breakers ++ tail) ∧
      (((∀ f, deg f =
          E.countP (fun e => decide (e.2 = f) && decide (e.1 ∉ sorted))) ∧
        (∀ v ∈ sorted, ∀ e ∈ E, e.2 = v → ordBefore sorted e.1 v)) →
        (topoLoop t E keys fuel deg q sorted breakers).2 = breakers →
        ∀ e ∈ E, ordBefore (topoLoop t E keys fuel deg q sorted breakers).1 e.1 e.2) := by
  intro fuel
  induction fuel with
  | zero =>
    intro deg q sorted breakers hA hB hC hD hE hF hfuel
    have hq : q.length + sorted.length ≤ keys.length := by
      have hnodup : (q.map (fun k => k.2.2) ++ sorted).Nodup := by
        rw [List.nodup_append]
        refine ⟨hD, hA, ?_⟩
        intro x hx hxs
        obtain ⟨k, hk, hkx⟩ := List.mem_map.mp hx
        exact (hC k hk).2.2.1 (hkx ▸ hxs)
      have hsub : ∀ x ∈ q.map (fun k => k.2.2) ++ sorted, x ∈ keys := by
        intro x hx
        rcases List.mem_append.mp hx with hx | hx
        · obtain ⟨k, hk, hkx⟩ := List.mem_map.mp hx
          exact hkx ▸ (hC k hk).2.1
        · exact hB x hx
      have := nodup_subset_length hnodup hsub
      simpa using this
    have hsn : keys.length ≤ sorted.length := by omega
    have hperm : sorted.Perm keys := perm_of_nodup_subset_length hA hkeys hB hsn
    refine ⟨hperm, ⟨[], by simp [topoLoop]⟩, ?_⟩
    rintro ⟨_, h9⟩ _ e he
    have he2 : e.2 ∈ sorted := hperm.mem_iff.mpr (hE2 e he)
    exact h9 e.2 he2 e he rfl
  | succ fuel ih =>
    intro deg q sorted breakers hA hB hC hD hE hF hfuel
    by_cases hguard : sorted.length < keys.length
    · cases hpop : popMin q with
      | some kq =>
        obtain ⟨k, q2⟩ := kq
        obtain ⟨hkq, hq2⟩ := popMin_some hpop
        obtain ⟨hkkey, hkmem, hksorted, hkdeg⟩ := hC k hkq
        have hqel : q.Nodup := List.Nodup.of_map (fun k => k.2.2) hD
        have heq := topoLoop_pop t E keys fuel deg q sorted breakers hguard hpop hksorted
        obtain ⟨push, hpq, hpnd, hple, hpmem, hpcomp⟩ :=
          relax_spec t (adjOf E k.2.2) deg q2
        have hq2names : ∀ k2 ∈ q2, k2.2.2 ≠ k.2.2 := by
          intro k2 hk2 hne
          have hk2q : k2 ≠ k ∧ k2 ∈ q := (List.Nodup.mem_erase_iff hqel).mp (hq2 ▸ hk2)
          apply hk2q.1
          rw [(hC k2 hk2q.2).1, hne, ← hkkey]
        have hq2sub : ∀ k2 ∈ q2, k2 ∈ q := by
          intro k2 hk2
          exact ((List.Nodup.mem_erase_iff hqel).mp (hq2 ▸ hk2)).2
        have hpushmem : ∀ v ∈ push, v ∈ keys ∧ v ∉ sorted ∧ v ≠ k.2.2 := by
          intro v hv
          obtain ⟨hadj, hpos, _⟩ := hpmem v hv
          refine ⟨hE2 (k.2.2, v) (mem_adjOf.mp hadj), ?_, ?_⟩
          · intro hvs
            have := hF v hvs
            omega
          · intro hvk
            rw [hvk] at hpos
            omega
        have hA2 : (sorted ++ [k.2.2]).Nodup := by
          rw [List.nodup_append]
          exact ⟨hA, List.nodup_singleton _, by
            intro x hx hx2
            simp at hx2
            exact hksorted (hx2 ▸ hx)⟩
        have hB2 : ∀ f ∈ sorted ++ [k.2.2], f ∈ keys := by
          intro f hf
          rcases List.mem_append.mp hf with hf | hf
          · exact hB f hf
          · simp at hf
            exact hf ▸ hkmem
        have hC2 : ∀ k2 ∈ (relax t (adjOf E k.2.2) deg q2).2,
            k2 = keyOf t k2.2.2 ∧ k2.2.2 ∈ keys ∧ k2.2.2 ∉ sorted ++ [k.2.2] ∧
            (relax t (adjOf E k.2.2) deg q2).1 k2.2.2 = 0 := by
          rw [hpq]
          intro k2 hk2
          rcases List.mem_append.mp hk2 with hk2 | hk2
          · obtain ⟨ha, hb, hc, hd⟩ := hC k2 (hq2sub k2 hk2)
            refine ⟨ha, hb, ?_, ?_⟩
            · intro hmm
              rcases List.mem_append.mp hmm with hmm | hmm
              · exact hc hmm
              · simp at hmm
                exact hq2names k2 hk2 hmm
            · have := hple k2.2.2
              omega
          · obtain ⟨v, hv, hvk⟩ := List.mem_map.mp hk2
            obtain ⟨hvkeys, hvsorted, hvne⟩ := hpushmem v hv
            subst hvk
            rw [keyOf_name]
            refine ⟨rfl, hvkeys, ?_, (hpmem v hv).2.2⟩
            intro hmm
            rcases List.mem_append.mp hmm with hmm | hmm
            · exact hvsorted hmm
            · simp at hmm
              exact hvne hmm
        have hD2 : ((relax t (adjOf E k.2.2) deg q2).2.map (fun k => k.2.2)).Nodup := by
          rw [hpq, List.map_append, names_map_keyOf, List.nodup_append]
          refine ⟨?_, hpnd, ?_⟩
          · have hsl : (q2.map (fun k => k.2.2)).Sublist (q.map (fun k => k.2.2)) := by
              rw [hq2]
              exact List.Sublist.map (fun k => k.2.2) (List.erase_sublist k q)
            exact hsl.nodup hD
          · intro x hx hxp
            obtain ⟨k2, hk2, hk2x⟩ := List.mem_map.mp hx
            have := (hC k2 (hq2sub k2 hk2)).2.2.2
            have := (hpmem x hxp).2.1
            rw [hk2x] at *
            omega
        have hE2b : ∀ f ∈ keys, f ∉ sorted ++ [k.2.2] →
            (∀ k2 ∈ (relax t (adjOf E k.2.2) deg q2).2, k2.2.2 ≠ f) →
            0 < (relax t (adjOf E k.2.2) deg q2).1 f := by
          intro f hfk hfs hfq
          have hfs2 : f ∉ sorted := fun hm => hfs (List.mem_append.mpr (Or.inl hm))
          have hfk2 : f ≠ k.2.2 := fun he =>
            hfs (List.mem_append.mpr (Or.inr (by simp [he])))
          have hfq0 : ∀ k2 ∈ q, k2.2.2 ≠ f := by
            intro k2 hk2 hne
            by_cases hk2k : k2 = k
            · exact hfk2 (hk2k ▸ hne).symm
            · have hk2q2 : k2 ∈ q2 := by
                rw [hq2]
                exact (List.Nodup.mem_erase_iff hqel).mpr ⟨hk2k, hk2⟩
              exact hfq k2 (hpq ▸ List.mem_append.mpr (Or.inl hk2q2)) hne
          have hdf : 0 < deg f := hE f hfk hfs2 hfq0
          by_cases hz : (relax t (adjOf E k.2.2) deg q2).1 f = 0
          · exfalso
            have hfp : f ∈ push := hpcomp f hdf hz
            exact hfq (keyOf t f) (hpq ▸ List.mem_append.mpr (Or.inr
              (List.mem_map_of_mem (keyOf t) hfp))) (keyOf_name t f)
          · omega
        have hF2 : ∀ f ∈ sorted ++ [k.2.2], (relax t (adjOf E k.2.2) deg q2).1 f = 0 := by
          intro f hf
          have := hple f
          rcases List.mem_append.mp hf with hf | hf
          · have := hF f hf
            omega
          · simp at hf
            subst hf
            omega
        have hq2len : q2.length = q.length - 1 := by
          rw [hq2]
          exact List.length_erase_of_mem hkq
        have hqpos : 0 < q.length := List.length_pos_of_mem hkq
        have hfuel2 : 2 * (keys.length - (sorted ++ [k.2.2]).length) <
            fuel + (relax t (adjOf E k.2.2) deg q2).2.length := by
          rw [hpq, List.length_append, List.length_append]
          simp only [List.length_singleton, List.length_map]
          omega
        obtain ⟨ih1, ih2, ih3⟩ := ih (relax t (adjOf E k.2.2) deg q2).1
          (relax t (adjOf E k.2.2) deg q2).2 (sorted ++ [k.2.2]) breakers
          hA2 hB2 hC2 hD2 hE2b hF2 hfuel2
        rw [heq]
        refine ⟨ih1, ih2, ?_⟩
        rintro ⟨h7, h9⟩ hres e he
        apply ih3 ?_ hres e he
        constructor
        · intro f
          apply relax_exact t (adjOf E k.2.2) deg q2
            (fun f => E.countP (fun e => decide (e.2 = f) &&
              decide (e.1 ∉ sorted ++ [k.2.2])))
          intro v
          rw [h7 v, count_adjOf, countP_split_notmem E sorted k.2.2 v hksorted]
        · intro v hv e2 he2 hev
          rcases List.mem_append.mp hv with hv | hv
          · exact ordBefore_append (h9 v hv e2 he2 hev) [k.2.2]
          · simp at hv
            subst hv
            have hzero : E.countP (fun e => decide (e.2 = k.2.2) &&
                decide (e.1 ∉ sorted)) = 0 := by
              rw [← h7 k.2.2]
              exact hkdeg
            have hsrc : e2.1 ∈ sorted := by
              have hcc := List.countP_eq_zero.mp hzero e2 he2
              simp only [Bool.and_eq_true, decide_eq_true_eq] at hcc
              by_contra hns
              exact hcc ⟨hev, hns⟩
            obtain ⟨j, hj⟩ := posOf?_of_mem hsrc
            refine ⟨j, sorted.length, posOf?_append_left hj [k.2.2], ?_, ?_⟩
            · rw [posOf?_append_right hksorted [k.2.2], posOf?_cons_eq]
              simp
            · exact posOf?_lt_length hj
      | none =>
        have hqnil : q = [] := popMin_none hpop
        subst hqnil
        cases hstuck : stuckNodes keys deg sorted with
        | nil =>
          have heq := topoLoop_stuckEmpty t E keys fuel deg [] sorted breakers
            hguard hpop hstuck
          rw [heq]
          have hall : ∀ f ∈ keys, f ∈ sorted := by
            intro f hf
            by_contra hns
            have hdf : 0 < deg f := hE f hf hns (by intro k hk; cases hk)
            have : f ∈ stuckNodes keys deg sorted :=
              mem_stuckNodes.mpr ⟨hf, hdf, hns⟩
            rw [hstuck] at this
            cases this
          have hsn : keys.length ≤ sorted.length := nodup_subset_length hkeys hall
          have hperm : sorted.Perm keys := perm_of_nodup_subset_length hA hkeys hB hsn
          refine ⟨hperm, ⟨[], by simp⟩, ?_⟩
          rintro ⟨_, h9⟩ _ e he
          exact h9 e.2 (hall e.2 (hE2 e he)) e he rfl
        | cons r0 rs =>
          have heq := topoLoop_break t E keys fuel deg [] sorted breakers
            hguard hpop hstuck
          obtain ⟨hbmem, _⟩ := argminKey_spec t r0 rs
          have hbstuck : argminKey t r0 rs ∈ stuckNodes keys deg sorted := by
            rw [hstuck]
            exact hbmem
          obtain ⟨hbkeys, hbdeg, hbsorted⟩ := mem_stuckNodes.mp hbstuck
          have hC2 : ∀ k2 ∈ ([] : List (Nat × Nat × String)) ++
              [keyOf t (argminKey t r0 rs)],
              k2 = keyOf t k2.2.2 ∧ k2.2.2 ∈ keys ∧ k2.2.2 ∉ sorted ∧
              upd deg (argminKey t r0 rs) 0 k2.2.2 = 0 := by
            intro k2 hk2
            simp at hk2
            subst hk2
            rw [keyOf_name]
            exact ⟨rfl, hbkeys, hbsorted, by simp [upd]⟩
          have hE2c : ∀ f ∈ keys, f ∉ sorted →
              (∀ k2 ∈ ([] : List (Nat × Nat × String)) ++
                [keyOf t (argminKey t r0 rs)], k2.2.2 ≠ f) →
              0 < upd deg (argminKey t r0 rs) 0 f := by
            intro f hf hfs hfq
            have hfb : f ≠ argminKey t r0 rs := by
              intro he
              exact hfq (keyOf t (argminKey t r0 rs)) (by simp)
                (by rw [keyOf_name, he])
            have := hE f hf hfs (by intro k hk; cases hk)
            simpa [upd, hfb] using this
          have hF2 : ∀ f ∈ sorted, upd deg (argminKey t r0 rs) 0 f = 0 := by
            intro f hf
            have hfb : f ≠ argminKey t r0 rs := fun he => hbsorted (he ▸ hf)
            simpa [upd, hfb] using hF f hf
          have hfuel2 : 2 * (keys.length - sorted.length) <
              fuel + (([] : List (Nat × Nat × String)) ++
                [keyOf t (argminKey t r0 rs)]).length := by
            simp at hfuel ⊢
            omega
          obtain ⟨ih1, ih2, ih3⟩ := ih (upd deg (argminKey t r0 rs) 0)
            ([] ++ [keyOf t (argminKey t r0 rs)]) sorted
            (breakers ++ [argminKey t r0 rs]) hA hB hC2 (by simp) hE2c hF2 hfuel2
          rw [heq]
          obtain ⟨tail, htail⟩ := ih2
          refine ⟨ih1, ⟨[argminKey t r0 rs] ++ tail, by rw [htail, List.append_assoc]⟩, ?_⟩
          rintro _ hres
          exfalso
          rw [htail] at hres
          have := congrArg List.length hres

          simp at this
    · have heq := topoLoop_done t E keys fuel deg q sorted breakers hguard
      rw [heq]
      have hsn : keys.length ≤ sorted.length := by omega
      have hperm : sorted.Perm keys := perm_of_nodup_subset_length hA hkeys hB hsn
      refine ⟨hperm, ⟨[], by simp⟩, ?_⟩
      rintro ⟨_, h9⟩ _ e he
      exact h9 e.2 (hperm.mem_iff.mpr (hE2 e he)) e he rfl

theorem topoEdges_snd_mem (c : Ctx) : ∀ e ∈ topoEdges c, e.2 ∈ ftiKeys c := by
  intro e he
  unfold topoEdges at he
  rw [List.mem_flatMap] at he
  obtain ⟨fd, hfd, he⟩ := he
  by_cases h1 : fd.2 ∈ c.ignoreReq
  · rw [if_pos h1] at he
    cases he
  · rw [if_neg h1] at he
    rw [List.mem_flatMap] at he
    obtain ⟨r, _, he⟩ := he
    by_cases h2 : isDependencySatisfied c r.rid
    · rw [if_pos h2] at he
      rw [List.mem_filterMap] at he
      obtain ⟨pf, _, he⟩ := he
      by_cases h3 : (alookup c.folderToId pf).isSome
      · rw [if_pos h3] at he
        have heq : e = (pf, fd.1) := by
          simpa using he.symm
        rw [heq]
        exact List.mem_map_of_mem (fun p => p.1) hfd
      · rw [if_neg h3] at he
        cases he
    · rw [if_neg h2] at he
      cases he

theorem indeg_countP (E : List (String × String)) (f : String) :
    indeg E f = E.countP (fun e => decide (e.2 = f)) := by
  unfold indeg
  rw [List.countP_eq_length_filter]

theorem initQueue_mem {t : TopoIn} {deg : String → Nat} {k : Nat × Nat × String}
    (hk : k ∈ initQueue t deg) :
    ∃ f ∈ ftiKeys t.c, deg f = 0 ∧ k = keyOf t f := by
  unfold initQueue at hk
  rw [List.mem_filterMap] at hk
  obtain ⟨f, hf, hfk⟩ := hk
  by_cases h : deg f = 0
  · rw [if_pos h] at hfk
    exact ⟨f, hf, h, by simpa using hfk.symm⟩
  · rw [if_neg h] at hfk
    cases hfk

theorem initQueue_names (t : TopoIn) (deg : String → Nat) :
    ∀ (l : List String),
      ((l.filterMap (fun f => if deg f = 0 then some (keyOf t f) else none)).map
        (fun k => k.2.2)) = l.filter (fun f => decide (deg f = 0)) := by
  intro l
  induction l with
  | nil => rfl
  | cons f r ih =>
    rw [List.filterMap_cons, List.filter_cons]
    by_cases h : deg f = 0
    · simp [h, ih, keyOf_name]
    · simp [h, ih]

theorem mem_initQueue_of_deg_zero {t : TopoIn} {deg : String → Nat} {f : String}
    (hf : f ∈ ftiKeys t.c) (h : deg f = 0) : keyOf t f ∈ initQueue t deg := by
  unfold initQueue
  rw [List.mem_filterMap]
  exact ⟨f, hf, by rw [if_pos h]⟩

theorem performTopologicalSort_run (t : TopoIn) (hkeys : (ftiKeys t.c).Nodup) :
    (performTopologicalSort t).1.Perm (ftiKeys t.c) ∧
    ((performTopologicalSort t).2 = [] →
      ∀ e ∈ topoEdges t.c, ordBefore (performTopologicalSort t).1 e.1 e.2) := by
  have hperf : performTopologicalSort t =
      topoLoop t (topoEdges t.c) (ftiKeys t.c) (2 * (ftiKeys t.c).length + 2)
        (fun f => indeg (topoEdges t.c) f)
        (initQueue t (fun f => indeg (topoEdges t.c) f)) [] [] := rfl
  have hC0 : ∀ k ∈ initQueue t (fun f => indeg (topoEdges t.c) f),
      k = keyOf t k.2.2 ∧ k.2.2 ∈ ftiKeys t.c ∧ k.2.2 ∉ ([] : List String) ∧
      indeg (topoEdges t.c) k.2.2 = 0 := by
    intro k hk
    obtain ⟨f, hf, hdeg, hkf⟩ := initQueue_mem hk
    subst hkf
    rw [keyOf_name]
    exact ⟨rfl, hf, by simp, hdeg⟩
  have hD0 : ((initQueue t (fun f => indeg (topoEdges t.c) f)).map
      (fun k => k.2.2)).Nodup := by
    unfold initQueue
    rw [initQueue_names]
    exact hkeys.filter _
  have hE0 : ∀ f ∈ ftiKeys t.c, f ∉ ([] : List String) →
      (∀ k ∈ initQueue t (fun f => indeg (topoEdges t.c) f), k.2.2 ≠ f) →
      0 < indeg (topoEdges t.c) f := by
    intro f hf _ hq
    by_cases h : indeg (topoEdges t.c) f = 0
    · exact absurd (keyOf_name t f)
        (hq (keyOf t f) (mem_initQueue_of_deg_zero hf h))
    · omega
  have hfuel0 : 2 * ((ftiKeys t.c).length - ([] : List String).length) <
      2 * (ftiKeys t.c).length + 2 +
        (initQueue t (fun f => indeg (topoEdges t.c) f)).length := by
    simp
    omega
  obtain ⟨h1, h2, h3⟩ := topoLoop_main t (topoEdges t.c) (ftiKeys t.c) hkeys
    (topoEdges_snd_mem t.c) (2 * (ftiKeys t.c).length + 2)
    (fun f => indeg (topoEdges t.c) f)
    (initQueue t (fun f => indeg (topoEdges t.c) f)) [] []
    (by simp) (by simp) hC0 hD0 hE0 (by simp) hfuel0
  rw [hperf]
  refine ⟨h1, ?_⟩
  intro hres
  apply h3 ?_ hres
  constructor
  · intro f
    rw [indeg_countP]
    apply List.countP_congr
    intro e _
    simp
  · intro v hv
    cases hv

theorem edgeChain_pos {E : List (String × String)} {o : List String}
    (hord : ∀ e ∈ E, ordBefore o e.1 e.2) :
    ∀ (xs : List String) (x : String) (jx : Nat), posOf? o x = some jx →
      edgeChain E (x :: xs) →
      ∃ jl, posOf? o ((x :: xs).getLast (by simp)) = some jl ∧ jx ≤ jl := by
  intro xs
  induction xs with
  | nil =>
    intro x jx hx _
    exact ⟨jx, by simpa using hx, le_refl _⟩
  | cons y rest ih =>
    intro x jx hx hchain
    obtain ⟨hedge, hchain2⟩ := hchain
    obtain ⟨jx2, jy, hx2, hy, hlt⟩ := hord (x, y) hedge
    have hjx : jx2 = jx := by
      rw [hx] at hx2
      simpa using hx2.symm
    obtain ⟨jl, hl, hle⟩ := ih y jy hy hchain2
    refine ⟨jl, ?_, by omega⟩
    rw [List.getLast_cons (by simp)]
    exact hl

/-- Claim C5: for every dependency graph, including cyclic ones, and
absent cancellation, the topological sorter returns an output that is a
permutation of exactly the installed folder set (the keys of the
folder-to-id map): every installed folder appears exactly once, with no
duplicates and no omissions. -/
theorem c5_topo_totality (t : TopoIn) (hkeys : (ftiKeys t.c).Nodup) :
    (performTopologicalSort t).1.Perm (ftiKeys t.c) :=
  (performTopologicalSort_run t hkeys).1

/-- Claim C5, witness at the two-cycle scenario. -/
theorem c5_topo_totality_witness :
    (performTopologicalSort exCyc).1.Perm (ftiKeys exCyc.c) :=
  c5_topo_totality exCyc (by decide)

/-- Claim C6: on a graph whose installed-folder constraint edges contain
a cycle, the sorter still terminates with a complete permutation of the
installed folders, records at least one cycle-break folder, and at every
state where the ready heap empties with stuck nodes remaining, the loop
breaks the cycle exactly at the stuck node minimizing the key
(categoryPriority, currentPosition, folderName), forcing its in-degree
to zero and appending it to the cycle-break list. -/
theorem c6_cycle_break (t : TopoIn) (hkeys : (ftiKeys t.c).Nodup)
    (hcyc : hasCycle (topoEdges t.c)) :
    (performTopologicalSort t).1.Perm (ftiKeys t.c) ∧
    (performTopologicalSort t).2 ≠ [] ∧
    (∀ (deg : String → Nat) (sorted : List String) (r0 : String) (rs : List String),
      stuckNodes (ftiKeys t.c) deg sorted = r0 :: rs →
      argminKey t r0 rs ∈ stuckNodes (ftiKeys t.c) deg sorted ∧
      (∀ f ∈ stuckNodes (ftiKeys t.c) deg sorted,
        ¬ keyLt (keyOf t f) (keyOf t (argminKey t r0 rs))) ∧
      ∀ (fuel : Nat) (q : List (Nat × Nat × String)) (breakers : List String),
        popMin q = none → sorted.length < (ftiKeys t.c).length →
        topoLoop t (topoEdges t.c) (ftiKeys t.c) (fuel + 1) deg q sorted breakers =
          topoLoop t (topoEdges t.c) (ftiKeys t.c) fuel
            (upd deg (argminKey t r0 rs) 0)
            (q ++ [keyOf t (argminKey t r0 rs)]) sorted
            (breakers ++ [argminKey t r0 rs])) := by
  obtain ⟨hperm, hsound⟩ := performTopologicalSort_run t hkeys
  refine ⟨hperm, ?_, ?_⟩
  · intro hres
    have hord := hsound hres
    obtain ⟨x, xs, hchain, hclose⟩ := hcyc
    obtain ⟨jl, jx, hl, hx, hlt⟩ :=
      hord (((x :: xs).getLast (by simp)), x) hclose
    obtain ⟨jl2, hl2, hle⟩ := edgeChain_pos hord xs x jx hx hchain
    rw [hl] at hl2
    have : jl2 = jl := by simpa using hl2.symm
    omega
  · intro deg sorted r0 rs hstuck
    obtain ⟨hmem, hmin⟩ := argminKey_spec t r0 rs
    refine ⟨by rw [hstuck]; exact hmem, by rw [hstuck]; exact hmin, ?_⟩
    intro fuel q breakers hpop hguard
    exact topoLoop_break t (topoEdges t.c) (ftiKeys t.c) fuel deg q sorted
      breakers hguard hpop hstuck

/-- Claim C6, witness at the two-cycle scenario (cycle A, B). -/
theorem c6_cycle_break_witness :
    (performTopologicalSort exCyc).1.Perm (ftiKeys exCyc.c) ∧
    (performTopologicalSort exCyc).2 ≠ [] ∧
    (∀ (deg : String → Nat) (sorted : List String) (r0 : String) (rs : List String),
      stuckNodes (ftiKeys exCyc.c) deg sorted = r0 :: rs →
      argminKey exCyc r0 rs ∈ stuckNodes (ftiKeys exCyc.c) deg sorted ∧
      (∀ f ∈ stuckNodes (ftiKeys exCyc.c) deg sorted,
        ¬ keyLt (keyOf exCyc f) (keyOf exCyc (argminKey exCyc r0 rs))) ∧
      ∀ (fuel : Nat) (q : List (Nat × Nat × String)) (breakers : List String),
        popMin q = none → sorted.length < (ftiKeys exCyc.c).length →
        topoLoop exCyc (topoEdges exCyc.c) (ftiKeys exCyc.c) (fuel + 1) deg q
            sorted breakers =
          topoLoop exCyc (topoEdges exCyc.c) (ftiKeys exCyc.c) fuel
            (upd deg (argminKey exCyc r0 rs) 0)
            (q ++ [keyOf exCyc (argminKey exCyc r0 rs)]) sorted
            (breakers ++ [argminKey exCyc r0 rs])) :=
  c6_cycle_break exCyc (by decide)
    ⟨"A", ["B"], ⟨by decide, trivial⟩, by decide⟩


/-! Structural characterization of the separator-boundary scan
(claim C4 machinery). -/

theorem posOf?_split {pre rest : List String} {x : String} (hx : x ∉ pre) :
    posOf? (pre ++ x :: rest) x = some pre.length := by
  rw [posOf?_append_right hx, posOf?_cons_eq]
  simp

theorem BFInv_init (isSep : String → Bool) (orig : List String) :
    BFInv isSep orig orig 0 (initBState orig.length) := by
  refine ⟨by simp, by simp [initBState], Or.inl rfl, ?_, ?_, ?_, ?_, ?_, ?_, ?_, ?_, ?_, ?_⟩
  · intro g hg hb
    exact absurd (by simp [initBState, hg]) hb
  · intro _ g hg
    simp [initBState, hg]
  · intro hcon
    exact absurd rfl hcon
  · intro g hg _
    left
    simp [initBState, hg]
  · intro g h hg hh _ _ _ j hcon
    have h1 : (initBState orig.length).bounds g = (orig.length, (-1 : Int)) := by
      simp [initBState, hg]
    rw [h1] at hcon
    obtain ⟨_, h2, _⟩ := hcon
    omega
  · intro x g h
    simp [initBState] at h
  · intro x g h
    simp [initBState] at h
  · intro x h
    simp [initBState] at h
  · intro x hx _ hnr
    exact absurd hx hnr
  · intro x g h
    simp [initBState] at h

theorem boundsStep_inv_plain (isSep : String → Bool) (orig rest : List String)
    (x : String) (i : Nat) (st : BState)
    (hsx : isSep x = false) (hxns : x ≠ NOSEP) (hxrest : x ∉ rest)
    (hposx : posOf? orig x = some i)
    (hinv : BFInv isSep orig (x :: rest) i st) :
    BFInv isSep orig rest (i + 1) (boundsStep isSep st x i) := by
  obtain ⟨hlen, hnosep1, hcur, hfresh, hnone, hopen, hclosed, hdisj, hsmap,
    hmem, hnosepmem, hcover, hdom⟩ := hinv
  have hstep : boundsStep isSep st x i =
      { st with sepMap := upd st.sepMap x (some st.cur) } := by
    unfold boundsStep
    rw [hsx]
    simp
  rw [hstep]
  refine ⟨?_, hnosep1, ?_, ?_, hnone, ?_, hclosed, hdisj, ?_, ?_, ?_, ?_, ?_⟩
  · simp only [List.length_cons] at hlen
    omega
  · rcases hcur with h | ⟨h1, h2⟩
    · exact Or.inl h
    · exact Or.inr ⟨fun hm => h1 (List.mem_cons_of_mem x hm), h2⟩
  · intro g hg hb
    exact fun hm => hfresh g hg hb (List.mem_cons_of_mem x hm)
  · intro hc
    obtain ⟨s, h1, h2⟩ := hopen hc
    exact ⟨s, h1, by omega⟩
  · intro x0 g h
    by_cases hx0 : x0 = x
    · subst hx0
      have hgc : st.cur = g := by simpa [upd] using h
      subst hgc
      rcases hcur with h1 | ⟨h1, _⟩
      · exact Or.inl h1
      · exact Or.inr (fun hm => h1 (List.mem_cons_of_mem x0 hm))
    · have h2 : st.sepMap x0 = some g := by simpa [upd, hx0] using h
      rcases hsmap x0 g h2 with h1 | h1
      · exact Or.inl h1
      · exact Or.inr (fun hm => h1 (List.mem_cons_of_mem x hm))
  · intro x0 g h
    by_cases hx0 : x0 = x
    · subst hx0
      have hgc : st.cur = g := by simpa [upd] using h
      subst hgc
      by_cases hcN : st.cur = NOSEP
      · rw [hcN]
        refine ⟨i, hposx, by omega, ?_, Or.inr ⟨?_, Or.inr rfl⟩⟩
        · rw [hnosep1]
          simp
        · rw [hnosep1]
      · obtain ⟨s, hb1, hb2⟩ := hopen hcN
        refine ⟨i, hposx, by omega, ?_, Or.inr ⟨?_, Or.inl rfl⟩⟩
        · rw [hb1]
          simpa using hb2
        · rw [hb1]
    · have h2 : st.sepMap x0 = some g := by simpa [upd, hx0] using h
      obtain ⟨j, h3, h4, h5, h6⟩ := hmem x0 g h2
      exact ⟨j, h3, by omega, h5, h6⟩
  · intro x0 h
    by_cases hx0 : x0 = x
    · subst hx0
      have hcN : st.cur = NOSEP := by simpa [upd] using h
      refine ⟨i, hposx, ?_⟩
      intro g hg hb
      exact absurd (hnone hcN g hg) hb
    · have h2 : st.sepMap x0 = some NOSEP := by simpa [upd, hx0] using h
      exact hnosepmem x0 h2
  · intro x0 hx0m hx0s hx0r
    by_cases hx0 : x0 = x
    · subst hx0
      simp [upd]
    · have hnx : x0 ∉ x :: rest := by
        simp [List.mem_cons, hx0, hx0r]
      have h2 := hcover x0 hx0m hx0s hnx
      simpa [upd, hx0] using h2
  · intro x0 g h
    by_cases hx0 : x0 = x
    · subst hx0
      exact hxrest
    · have h2 : st.sepMap x0 = some g := by simpa [upd, hx0] using h
      exact fun hm => hdom x0 g h2 (List.mem_cons_of_mem x hm)

theorem boundsStep_inv_sep1 (isSep : String → Bool) (orig rest : List String)
    (x : String) (i : Nat) (st : BState)
    (hsx : isSep x = true) (hxns : x ≠ NOSEP) (hxrest : x ∉ rest)
    (hposx : posOf? orig x = some i) (hc : st.cur = NOSEP)
    (hinv : BFInv isSep orig (x :: rest) i st) :
    BFInv isSep orig rest (i + 1) (boundsStep isSep st x i) := by
  obtain ⟨hlen, hnosep1, hcur, hfresh, hnone, hopen, hclosed, hdisj, hsmap,
    hmem, hnosepmem, hcover, hdom⟩ := hinv
  have hbx : st.bounds x = (orig.length, (-1 : Int)) := hnone hc x hxns
  have hstep : boundsStep isSep st x i =
      { sepMap := st.sepMap,
        bounds := upd st.bounds x ((i + 1 : Nat), (-1 : Int)),
        cur := x } := by
    unfold boundsStep
    rw [hsx, hc]
    simp [hbx]
  rw [hstep]
  have hB : ∀ g, g ≠ x →
      upd st.bounds x ((i + 1 : Nat), (-1 : Int)) g = st.bounds g := by
    intro g hg
    simp [upd, hg]
  have hBx : upd st.bounds x ((i + 1 : Nat), (-1 : Int)) x =
      ((i + 1 : Nat), (-1 : Int)) := by
    simp [upd]
  have hNx : NOSEP ≠ x := fun he => hxns he.symm
  refine ⟨?_, ?_, ?_, ?_, ?_, ?_, ?_, ?_, ?_, ?_, ?_, ?_, ?_⟩
  · simp only [List.length_cons] at hlen
    omega
  · dsimp only
    rw [hB NOSEP hNx]
    exact hnosep1
  · exact Or.inr ⟨hxrest, hxns⟩
  · intro g hg hb
    dsimp only at hb
    by_cases hgx : g = x
    · subst hgx
      exact hxrest
    · rw [hB g hgx] at hb
      exact fun hm => hfresh g hg hb (List.mem_cons_of_mem x hm)
  · intro hcx
    exact absurd hcx hxns
  · intro _
    exact ⟨i, hBx, by omega⟩
  · intro g hg hgx
    dsimp only
    left
    rw [hB g hgx]
    exact hnone hc g hg
  · intro g h hg hh hgh hgx hhx j hcon
    dsimp only at hcon
    rw [hB g hgx, hnone hc g hg] at hcon
    obtain ⟨_, h2, _⟩ := hcon
    omega
  · intro x0 g h
    rcases hsmap x0 g h with h1 | h1
    · exact Or.inl h1
    · exact Or.inr (fun hm => h1 (List.mem_cons_of_mem x hm))
  · intro x0 g h
    obtain ⟨j, h1, h2, h3, h4⟩ := hmem x0 g h
    have hgx : g ≠ x := by
      rcases hsmap x0 g h with hg1 | hg1
      · subst hg1
        exact hNx
      · exact fun he => hg1 (he ▸ List.mem_cons_self x rest)
    dsimp only
    rw [hB g hgx]
    refine ⟨j, h1, by omega, h3, ?_⟩
    rcases h4 with h5 | ⟨h5, h6⟩
    · exact Or.inl h5
    · refine Or.inr ⟨h5, Or.inr ?_⟩
      rcases h6 with h7 | h7
      · rw [h7, hc]
      · exact h7
  · intro x0 h
    obtain ⟨j, h1, hall⟩ := hnosepmem x0 h
    obtain ⟨j2, h2, h3, _, _⟩ := hmem x0 NOSEP h
    have hj2 : j2 = j := by
      rw [h1] at h2
      exact (Option.some.inj h2).symm
    subst hj2
    refine ⟨j2, h1, ?_⟩
    intro g hg hb
    dsimp only at hb ⊢
    by_cases hgx : g = x
    · subst hgx
      rw [hBx]
      omega
    · rw [hB g hgx] at hb ⊢
      exact absurd (hnone hc g hg) hb
  · intro x0 hx0m hx0s hx0r
    have hx0x : x0 ≠ x := by
      intro he
      rw [he, hsx] at hx0s
      cases hx0s
    have hnx : x0 ∉ x :: rest := by
      simp [List.mem_cons, hx0x, hx0r]
    exact hcover x0 hx0m hx0s hnx
  · intro x0 g h
    exact fun hm => hdom x0 g h (List.mem_cons_of_mem x hm)

theorem boundsStep_inv_sep2 (isSep : String → Bool) (orig rest : List String)
    (x : String) (i : Nat) (st : BState)
    (hsx : isSep x = true) (hxns : x ≠ NOSEP) (hxrest : x ∉ rest)
    (hposx : posOf? orig x = some i) (hc : st.cur ≠ NOSEP)
    (hinv : BFInv isSep orig (x :: rest) i st) :
    BFInv isSep orig rest (i + 1) (boundsStep isSep st x i) := by
  obtain ⟨hlen, hnosep1, hcur, hfresh, hnone, hopen, hclosed, hdisj, hsmap,
    hmem, hnosepmem, hcover, hdom⟩ := hinv
  obtain ⟨s, hbc, hsi⟩ := hopen hc
  have hcur2 : st.cur ∉ x :: rest ∧ st.cur ≠ NOSEP := hcur.resolve_left hc
  have hxcur : x ≠ st.cur := fun he => hcur2.1 (he ▸ List.mem_cons_self x rest)
  have hcurx : st.cur ≠ x := fun he => hxcur he.symm
  have hNx : NOSEP ≠ x := fun he => hxns he.symm
  have hNc : NOSEP ≠ st.cur := Ne.symm hc
  have hbxd : st.bounds x = (orig.length, (-1 : Int)) := by
    by_contra hb
    exact (hfresh x hxns hb) (List.mem_cons_self x rest)
  have hstep : boundsStep isSep st x i =
      { sepMap := st.sepMap,
        bounds := upd (upd st.bounds st.cur ((st.bounds st.cur).1, (i : Int))) x
          ((i + 1 : Nat), (-1 : Int)),
        cur := x } := by
    unfold boundsStep
    rw [hsx]
    rw [if_pos hc]
    simp [upd, hxcur, hbxd]
  have hBx : (upd (upd st.bounds st.cur ((st.bounds st.cur).1, (i : Int))) x
      ((i + 1 : Nat), (-1 : Int))) x = ((i + 1 : Nat), (-1 : Int)) := by
    simp [upd]
  have hBc : (upd (upd st.bounds st.cur ((st.bounds st.cur).1, (i : Int))) x
      ((i + 1 : Nat), (-1 : Int))) st.cur = ((s + 1 : Nat), (i : Int)) := by
    simp [upd, hcurx, hbc]
  have hBo : ∀ g, g ≠ x → g ≠ st.cur →
      (upd (upd st.bounds st.cur ((st.bounds st.cur).1, (i : Int))) x
        ((i + 1 : Nat), (-1 : Int))) g = st.bounds g := by
    intro g h1 h2
    simp [upd, h1, h2]
  rw [hstep]
  refine ⟨?_, ?_, ?_, ?_, ?_, ?_, ?_, ?_, ?_, ?_, ?_, ?_, ?_⟩
  · simp only [List.length_cons] at hlen
    omega
  · dsimp only
    rw [hBo NOSEP hNx hNc]
    exact hnosep1
  · exact Or.inr ⟨hxrest, hxns⟩
  · intro g hg hb
    dsimp only at hb
    by_cases hgx : g = x
    · subst hgx
      exact hxrest
    · by_cases hgc : g = st.cur
      · exact fun hm => hcur2.1 (List.mem_cons_of_mem x (hgc ▸ hm))
      · rw [hBo g hgx hgc] at hb
        exact fun hm => hfresh g hg hb (List.mem_cons_of_mem x hm)
  · intro hcx
    exact absurd hcx hxns
  · intro _
    exact ⟨i, hBx, Nat.le_refl (i + 1)⟩
  · intro g hg hgx
    dsimp only at hgx ⊢
    by_cases hgc : g = st.cur
    · subst hgc
      refine Or.inr ⟨?_, ?_⟩
      · rw [hBc]
        dsimp only
        omega
      · rw [hBc, hBx]
        dsimp only
        push_cast
        omega
    · rcases hclosed g hg hgc with h1 | ⟨h1, h2⟩
      · left
        rw [hBo g hgx hgc]
        exact h1
      · have h3 : (st.bounds g).2 < ((s + 1 : Nat) : Int) := by
          rw [hbc] at h2
          exact h2
        refine Or.inr ⟨?_, ?_⟩
        · rw [hBo g hgx hgc]
          exact h1
        · rw [hBo g hgx hgc, hBx]
          dsimp only
          push_cast
          push_cast at h3
          omega
  · intro g h hg hh hgh hgx hhx j hcon
    dsimp only at hgx hhx hcon
    by_cases hgc : g = st.cur
    · subst hgc
      rw [hBc, hBo h hhx (Ne.symm hgh)] at hcon
      rcases hclosed h hh (Ne.symm hgh) with h1 | ⟨h1, h2⟩
      · rw [h1] at hcon
        dsimp only at hcon
        omega
      · rw [hbc] at h2
        dsimp only at h2 hcon
        push_cast at h2
        omega
    · by_cases hhc : h = st.cur
      · subst hhc
        rw [hBc, hBo g hgx hgc] at hcon
        rcases hclosed g hg hgc with h1 | ⟨h1, h2⟩
        · rw [h1] at hcon
          dsimp only at hcon
          omega
        · rw [hbc] at h2
          dsimp only at h2 hcon
          push_cast at h2
          omega
      · rw [hBo g hgx hgc, hBo h hhx hhc] at hcon
        exact hdisj g h hg hh hgh hgc hhc j hcon
  · intro x0 g hsm
    rcases hsmap x0 g hsm with h1 | h1
    · exact Or.inl h1
    · exact Or.inr (fun hm => h1 (List.mem_cons_of_mem x hm))
  · intro x0 g hsm
    obtain ⟨j, h1, h2, h3, h4⟩ := hmem x0 g hsm
    have hgx2 : g ≠ x := by
      rcases hsmap x0 g hsm with hg1 | hg1
      · subst hg1
        exact hNx
      · exact fun he => hg1 (he ▸ List.mem_cons_self x rest)
    dsimp only
    by_cases hgc : g = st.cur
    · subst hgc
      refine ⟨j, h1, by omega, ?_, Or.inl ?_⟩
      · rw [hBc]
        dsimp only
        rw [hbc] at h3
        dsimp only at h3
        exact h3
      · rw [hBc]
        dsimp only
        exact_mod_cast h2
    · refine ⟨j, h1, by omega, ?_, ?_⟩
      · rw [hBo g hgx2 hgc]
        exact h3
      · rw [hBo g hgx2 hgc]
        rcases h4 with h5 | ⟨h5, h6⟩
        · exact Or.inl h5
        · exact Or.inr ⟨h5, Or.inr (h6.resolve_left hgc)⟩
  · intro x0 hsm
    obtain ⟨j, h1, hall⟩ := hnosepmem x0 hsm
    obtain ⟨j2, h2, h3, _, _⟩ := hmem x0 NOSEP hsm
    have hj2 : j2 = j := by
      rw [h1] at h2
      exact (Option.some.inj h2).symm
    subst hj2
    refine ⟨j2, h1, ?_⟩
    intro g hg hb
    dsimp only at hb ⊢
    by_cases hgx : g = x
    · subst hgx
      rw [hBx]
      dsimp only
      omega
    · by_cases hgc : g = st.cur
      · subst hgc
        rw [hBc]
        dsimp only
        by_cases hdef : st.bounds st.cur = (orig.length, (-1 : Int))
        · have hsn : ((s + 1 : Nat), (-1 : Int)) = (orig.length, (-1 : Int)) :=
            hbc.symm.trans hdef
          have hsn2 : s + 1 = orig.length := congrArg Prod.fst hsn
          have := posOf?_lt_length h1
          omega
        · have h5 := hall st.cur hcur2.2 hdef
          rw [hbc] at h5
          dsimp only at h5
          exact h5
      · rw [hBo g hgx hgc] at hb ⊢
        exact hall g hg hb
  · intro x0 hx0m hx0s hx0r
    have hx0x : x0 ≠ x := by
      intro he
      rw [he, hsx] at hx0s
      cases hx0s
    have hnx2 : x0 ∉ x :: rest := by
      simp [List.mem_cons, hx0x, hx0r]
    exact hcover x0 hx0m hx0s hnx2
  · intro x0 g hsm
    exact fun hm => hdom x0 g hsm (List.mem_cons_of_mem x hm)

theorem boundsFold_inv (isSep : String → Bool) (orig : List String)
    (hnd : orig.Nodup) (hns : NOSEP ∉ orig) :
    ∀ (rest pre : List String) (st : BState),
      orig = pre ++ rest →
      BFInv isSep orig rest pre.length st →
      BFInv isSep orig [] orig.length (boundsFold isSep rest pre.length st) := by
  intro rest
  induction rest with
  | nil =>
    intro pre st hsplit hinv
    have hNl : pre.length = orig.length := by
      have h1 := hinv.hlen
      simpa using h1
    rw [boundsFold]
    exact hNl ▸ hinv
  | cons x rest2 ih =>
    intro pre st hsplit hinv
    have hnd2 : (pre ++ x :: rest2).Nodup := hsplit ▸ hnd
    obtain ⟨hpre, hxr, hdisj2⟩ := List.nodup_append.mp hnd2
    have hxpre : x ∉ pre := fun hm => hdisj2 hm (List.mem_cons_self x rest2)
    have hxrest : x ∉ rest2 := (List.nodup_cons.mp hxr).1
    have hxorig : x ∈ orig := by
      rw [hsplit]
      exact List.mem_append_right pre (List.mem_cons_self x rest2)
    have hxns : x ≠ NOSEP := fun he => hns (he ▸ hxorig)
    have hposx : posOf? orig x = some pre.length := by
      rw [hsplit]
      exact posOf?_split hxpre
    have hstep : BFInv isSep orig rest2 (pre.length + 1)
        (boundsStep isSep st x pre.length) := by
      cases hsx : isSep x with
      | false =>
        exact boundsStep_inv_plain isSep orig rest2 x pre.length st hsx hxns
          hxrest hposx hinv
      | true =>
        by_cases hc : st.cur = NOSEP
        · exact boundsStep_inv_sep1 isSep orig rest2 x pre.length st hsx hxns
            hxrest hposx hc hinv
        · exact boundsStep_inv_sep2 isSep orig rest2 x pre.length st hsx hxns
            hxrest hposx hc hinv
    rw [boundsFold]
    have hsplit2 : orig = (pre ++ [x]) ++ rest2 := by
      rw [hsplit]
      simp
    have hl : (pre ++ [x]).length = pre.length + 1 := by simp
    have h2 := ih (pre ++ [x]) (boundsStep isSep st x pre.length) hsplit2
      (by rw [hl]; exact hstep)
    rw [hl] at h2
    exact h2

theorem BFInv_final (isSep : String → Bool) (orig : List String) (st st2 : BState)
    (hinv : BFInv isSep orig [] orig.length st)
    (hb2 : st2.bounds =
      upd st.bounds st.cur ((st.bounds st.cur).1, (orig.length : Int)))
    (hsm2 : st2.sepMap = st.sepMap) :
    (∀ g h, g ≠ h → ∀ j : Nat, ¬ (inRegion st2 g j ∧ inRegion st2 h j)) ∧
    (∀ x j, isSep x = false → posOf? orig x = some j →
      ∃ g, st2.sepMap x = some g ∧ (st2.bounds g).1 ≤ j ∧
        ((j : Int) < (st2.bounds g).2 ∨
          (st2.bounds g).2 < ((st2.bounds g).1 : Int)) ∧
        ∀ g2, inRegion st2 g2 j → g2 = g) := by
  obtain ⟨hlen, hnosep1, hcur, hfresh, hnone, hopen2, hclosed, hdisj3, hsmap,
    hmem2, hnosepmem, hcover, hdom⟩ := hinv
  have hFB : ∀ g, g ≠ st.cur → st2.bounds g = st.bounds g := by
    intro g hg
    rw [hb2]
    simp [upd, hg]
  have hFBc : st2.bounds st.cur = ((st.bounds st.cur).1, (orig.length : Int)) := by
    rw [hb2]
    simp [upd]
  have hfstAll : ∀ k, (st2.bounds k).1 = (st.bounds k).1 := by
    intro k
    by_cases hkc : k = st.cur
    · subst hkc
      rw [hFBc]
    · rw [hFB k hkc]
  have hK1 : ∀ g h, g ≠ h → ∀ j : Nat,
      ¬ (inRegion st2 g j ∧ inRegion st2 h j) := by
    by_cases hcN : st.cur = NOSEP
    · have hempty : ∀ k, k ≠ NOSEP → ∀ j : Nat, ¬ inRegion st2 k j := by
        intro k hk j hreg
        obtain ⟨h1, h2⟩ := hreg
        have hkc : k ≠ st.cur := by
          rw [hcN]
          exact hk
        rw [hFB k hkc, hnone hcN k hk] at h1 h2
        dsimp only at h1 h2
        omega
      rintro g h hgh j ⟨hg, hh⟩
      by_cases hgN : g = NOSEP
      · exact hempty h (fun he => hgh (hgN.trans he.symm)) j hh
      · exact hempty g hgN j hg
    · obtain ⟨s, hbc, hsi⟩ := hopen2 hcN
      have hNreg : ∀ j : Nat, ¬ inRegion st2 NOSEP j := by
        intro j hreg
        obtain ⟨h1, h2⟩ := hreg
        rw [hFB NOSEP (Ne.symm hcN), hnosep1] at h2
        dsimp only at h2
        omega
      rintro g h hgh j ⟨hg, hh⟩
      by_cases hgN : g = NOSEP
      · exact hNreg j (hgN ▸ hg)
      by_cases hhN : h = NOSEP
      · exact hNreg j (hhN ▸ hh)
      by_cases hgc : g = st.cur
      · subst hgc
        have hhc : h ≠ st.cur := fun he => hgh he.symm
        obtain ⟨hg1, hg2⟩ := hg
        rw [hFBc] at hg1
        rw [hbc] at hg1
        dsimp only at hg1
        obtain ⟨hh1, hh2⟩ := hh
        rw [hFB h hhc] at hh1 hh2
        rcases hclosed h hhN hhc with h1 | ⟨h1, h2⟩
        · rw [h1] at hh2
          dsimp only at hh2
          omega
        · rw [hbc] at h2
          dsimp only at h2
          omega
      by_cases hhc : h = st.cur
      · subst hhc
        obtain ⟨hh1, hh2⟩ := hh
        rw [hFBc] at hh1
        rw [hbc] at hh1
        dsimp only at hh1
        obtain ⟨hg1, hg2⟩ := hg
        rw [hFB g hgc] at hg1 hg2
        rcases hclosed g hgN hgc with h1 | ⟨h1, h2⟩
        · rw [h1] at hg2
          dsimp only at hg2
          omega
        · rw [hbc] at h2
          dsimp only at h2
          omega
      · obtain ⟨hg1, hg2⟩ := hg
        obtain ⟨hh1, hh2⟩ := hh
        rw [hFB g hgc] at hg1 hg2
        rw [hFB h hhc] at hh1 hh2
        exact hdisj3 g h hgN hhN hgh hgc hhc j ⟨hg1, hg2, hh1, hh2⟩
  refine ⟨hK1, ?_⟩
  intro x j hxs hpx
  have hxorig : x ∈ orig := mem_of_posOf? hpx
  have hsome := hcover x hxorig hxs (List.not_mem_nil x)
  obtain ⟨g, hg⟩ := Option.isSome_iff_exists.mp hsome
  obtain ⟨j2, hpx2, hj2len, hstart, hdis⟩ := hmem2 x g hg
  have hj2 : j2 = j := by
    rw [hpx] at hpx2
    exact (Option.some.inj hpx2).symm
  subst hj2
  have hstart2 : (st2.bounds g).1 ≤ j2 := by
    rw [hfstAll g]
    exact hstart
  have hend : (j2 : Int) < (st2.bounds g).2 ∨
      ((st2.bounds g).2 < ((st2.bounds g).1 : Int) ∧ g = NOSEP ∧
        st.cur ≠ NOSEP) := by
    rcases hdis with h5 | ⟨h5, h6⟩
    · have hgc : g ≠ st.cur := by
        intro he
        by_cases hcN : st.cur = NOSEP
        · rw [he, hcN, hnosep1] at h5
          dsimp only at h5
          omega
        · obtain ⟨s, hbc, _⟩ := hopen2 hcN
          rw [he, hbc] at h5
          dsimp only at h5
          omega
      left
      rw [hFB g hgc]
      exact h5
    · rcases h6 with h7 | h7
      · left
        rw [h7, hFBc]
        dsimp only
        exact_mod_cast posOf?_lt_length hpx
      · by_cases hcN : st.cur = NOSEP
        · left
          rw [h7, ← hcN, hFBc]
          dsimp only
          exact_mod_cast posOf?_lt_length hpx
        · right
          refine ⟨?_, h7, hcN⟩
          rw [h7, hFB NOSEP (Ne.symm hcN), hnosep1]
          dsimp only
          omega
  refine ⟨g, by rw [hsm2]; exact hg, hstart2, ?_, ?_⟩
  · rcases hend with h5 | ⟨h5, _⟩
    · exact Or.inl h5
    · exact Or.inr h5
  · intro g2 hreg
    by_cases hg2g : g2 = g
    · exact hg2g
    exfalso
    rcases hend with h5 | ⟨h5, h6, h7⟩
    · exact hK1 g2 g hg2g j2 ⟨hreg, hstart2, le_of_lt h5⟩
    · subst h6
      obtain ⟨j3, hpx3, hall⟩ := hnosepmem x hg
      have hj3 : j3 = j2 := by
        rw [hpx] at hpx3
        exact (Option.some.inj hpx3).symm
      subst hj3
      obtain ⟨s, hbc, hsi⟩ := hopen2 h7
      obtain ⟨hr1, hr2⟩ := hreg
      have hg2N : g2 ≠ NOSEP := hg2g
      by_cases hg2c : g2 = st.cur
      · subst hg2c
        rw [hFBc] at hr1 hr2
        rw [hbc] at hr1
        dsimp only at hr1 hr2
        by_cases hdef : st.bounds st.cur = (orig.length, (-1 : Int))
        · have hsn2 : s + 1 = orig.length := congrArg Prod.fst (hbc.symm.trans hdef)
          have hjlen := posOf?_lt_length hpx
          omega
        · have h8 := hall st.cur h7 hdef
          rw [hbc] at h8
          dsimp only at h8
          omega
      · by_cases hdef : st.bounds g2 = (orig.length, (-1 : Int))
        · rw [hFB g2 hg2c, hdef] at hr2
          dsimp only at hr2
          omega
        · have h10 := hall g2 hg2N hdef
          rw [hFB g2 hg2c] at hr1
          omega

theorem computeBounds_struct (isSep : String → Bool) (orig : List String)
    (hnd : orig.Nodup) (hns : NOSEP ∉ orig) :
    (∀ g h, g ≠ h → ∀ j : Nat,
      ¬ (inRegion (computeBounds isSep orig) g j ∧
         inRegion (computeBounds isSep orig) h j)) ∧
    (∀ x j, isSep x = false → posOf? orig x = some j →
      ∃ g, (computeBounds isSep orig).sepMap x = some g ∧
        ((computeBounds isSep orig).bounds g).1 ≤ j ∧
        ((j : Int) < ((computeBounds isSep orig).bounds g).2 ∨
          ((computeBounds isSep orig).bounds g).2 <
            (((computeBounds isSep orig).bounds g).1 : Int)) ∧
        ∀ g2, inRegion (computeBounds isSep orig) g2 j → g2 = g) := by
  have h0 : BFInv isSep orig orig 0 (initBState orig.length) := BFInv_init isSep orig
  have h1 := boundsFold_inv isSep orig hnd hns orig [] (initBState orig.length)
    (by simp) h0
  exact BFInv_final isSep orig (boundsFold isSep orig 0 (initBState orig.length))
    (computeBounds isSep orig) h1 rfl rfl

theorem mem_depWindow_inRegion {bst : BState} {problems : List (String × String)}
    {o : List String} {d : String} {i : Nat}
    (h : i ∈ depWindow bst problems o d) :
    inRegion bst ((bst.sepMap d).getD NOSEP) i := by
  simp only [depWindow] at h
  obtain ⟨h1, h2⟩ := mem_intRange h
  exact ⟨le_trans (le_max_left _ _) h1, h2⟩

theorem processDep_regionInv (c : Ctx) (isSep : String → Bool)
    (orig : List String) (hnd : orig.Nodup) (hns : NOSEP ∉ orig)
    (problems : List (String × String)) (o : List String) (d : String)
    (hd : isSep d = false)
    (hinv : regionInv (computeBounds isSep orig) orig o) :
    regionInv (computeBounds isSep orig) orig
      (processDep c (computeBounds isSep orig) problems o d) := by
  obtain ⟨hperm, hpos⟩ := hinv
  rcases processDep_cases c (computeBounds isSep orig) problems o d with
    h | ⟨a, ha, i, hiw, hres⟩
  · rw [h]
    exact ⟨hperm, hpos⟩
  refine ⟨(processDep_perm c (computeBounds isSep orig) problems o d).trans
    hperm, ?_⟩
  rw [hres]
  have hndo : o.Nodup := hperm.symm.nodup hnd
  obtain ⟨halt, hget⟩ := posOf?_get ha
  have hdorig : d ∈ orig := hperm.mem_iff.mp (mem_of_posOf? ha)
  obtain ⟨j0d, hj0d⟩ := posOf?_of_mem hdorig
  obtain ⟨hK1, hS1⟩ := computeBounds_struct isSep orig hnd hns
  obtain ⟨gd, hgd, hstartd, hendd, huniq⟩ := hS1 d j0d hd hj0d
  have hiR : inRegion (computeBounds isSep orig) gd i := by
    have h2 := mem_depWindow_inRegion hiw
    rw [hgd] at h2
    exact h2
  have hj0dR : inRegion (computeBounds isSep orig) gd j0d := by
    rcases hendd with h1 | h1
    · exact ⟨hstartd, le_of_lt h1⟩
    · exfalso
      obtain ⟨hi1, hi2⟩ := hiR
      omega
  have haR : inRegion (computeBounds isSep orig) gd a := by
    obtain ⟨j0e, hj0e, hcase⟩ := hpos d a ha
    have hje : j0e = j0d := by
      rw [hj0d] at hj0e
      exact (Option.some.inj hj0e).symm
    subst hje
    rcases hcase with h1 | ⟨g, hg1, hg2⟩
    · rw [h1]
      exact hj0dR
    · have hgg : g = gd := huniq g hg1
      subst hgg
      exact hg2
  obtain ⟨ha1, ha2⟩ := haR
  obtain ⟨hi1, hi2⟩ := hiR
  have haN : a < o.length := halt
  have htlen : (o.eraseIdx a).length = o.length - 1 := eraseIdx_length_of_lt halt
  have hdnotmem : d ∉ o.eraseIdx a := not_mem_eraseIdx_of_nodup hndo halt hget
  intro x jx hjx
  by_cases hxd : x = d
  · subst hxd
    rw [posOf?_pyInsert_self hdnotmem i] at hjx
    have hjxv : jx = min i (o.eraseIdx a).length := (Option.some.inj hjx).symm
    refine ⟨j0d, hj0d, Or.inr ⟨gd, hj0dR, ?_, ?_⟩⟩
    · rw [hjxv, htlen]
      omega
    · rw [hjxv, htlen]
      omega
  · have hxo : x ∈ o := by
      have hmem3 := mem_of_posOf? hjx
      have hmem4 : x ∈ d :: o.eraseIdx a :=
        (pyInsert_perm (o.eraseIdx a) i d).mem_iff.mp hmem3
      rcases List.mem_cons.mp hmem4 with h1 | h1
      · exact absurd h1 hxd
      · exact (perm_cons_eraseIdx halt hget).mem_iff.mpr (List.mem_cons_of_mem d h1)
    obtain ⟨jo, hjo⟩ := posOf?_of_mem hxo
    obtain ⟨hjt, hjna⟩ := posOf?_eraseIdx halt hget hxd hjo
    have heq2 := posOf?_pyInsert_other hxd hjt i
    have hjxv : jx = (if (if jo < a then jo else jo - 1) <
        min i (o.eraseIdx a).length then (if jo < a then jo else jo - 1)
        else (if jo < a then jo else jo - 1) + 1) := by
      rw [heq2] at hjx
      exact (Option.some.inj hjx).symm
    obtain ⟨j0x, hj0x, hcasex⟩ := hpos x jo hjo
    have hmain : jx = jo ∨
        (inRegion (computeBounds isSep orig) gd jo ∧
         inRegion (computeBounds isSep orig) gd jx) := by
      rw [htlen] at hjxv
      by_cases h1 : jo < a
      · by_cases h2 : jo < min i (o.length - 1)
        · left
          rw [hjxv, if_pos h1, if_pos h2]
        · right
          have hjxv2 : jx = jo + 1 := by
            rw [hjxv, if_pos h1, if_neg h2]
          have hio : min i (o.length - 1) ≤ jo := Nat.le_of_not_lt h2
          refine ⟨⟨by omega, by omega⟩, ?_⟩
          rw [hjxv2]
          exact ⟨by omega, by omega⟩
      · have hao : a < jo := Nat.lt_of_le_of_ne (Nat.le_of_not_lt h1)
          (Ne.symm hjna)
        by_cases h2 : jo - 1 < min i (o.length - 1)
        · right
          have hjxv2 : jx = jo - 1 := by
            rw [hjxv, if_neg h1, if_pos h2]
          refine ⟨⟨by omega, by omega⟩, ?_⟩
          rw [hjxv2]
          exact ⟨by omega, by omega⟩
        · left
          rw [hjxv, if_neg h1, if_neg h2]
          omega
    rcases hmain with h1 | ⟨hjoR, hjxR⟩
    · subst h1
      refine ⟨j0x, hj0x, ?_⟩
      rcases hcasex with h2 | ⟨g, hg1, hg2⟩
      · exact Or.inl h2
      · exact Or.inr ⟨g, hg1, hg2⟩
    · refine ⟨j0x, hj0x, Or.inr ⟨gd, ?_, hjxR⟩⟩
      rcases hcasex with h2 | ⟨g, hg1, hg2⟩
      · rw [h2] at hjoR
        exact hjoR
      · by_cases hggd : g = gd
        · subst hggd
          exact hg1
        · exact absurd ⟨hg2, hjoR⟩ (hK1 g gd hggd jo)

theorem foldl_regionInv (c : Ctx) (isSep : String → Bool) (orig : List String)
    (hnd : orig.Nodup) (hns : NOSEP ∉ orig)
    (problems : List (String × String)) :
    ∀ (movers : List String) (acc : List String × Bool),
      (∀ d ∈ movers, isSep d = false) →
      regionInv (computeBounds isSep orig) orig acc.1 →
      regionInv (computeBounds isSep orig) orig
        (movers.foldl (fun acc2 d =>
          let o2 := processDep c (computeBounds isSep orig) problems acc2.1 d
          if acc2.1 ≠ o2 then (o2, true) else acc2) acc).1 := by
  intro movers
  induction movers with
  | nil =>
    intro acc _ hinv
    exact hinv
  | cons d ms ih =>
    intro acc hmv hinv
    rw [List.foldl_cons]
    apply ih
    · intro d2 hd2
      exact hmv d2 (List.mem_cons_of_mem d hd2)
    · have hstep := processDep_regionInv c isSep orig hnd hns problems acc.1 d
        (hmv d (List.mem_cons_self d ms)) hinv
      show regionInv (computeBounds isSep orig) orig
        ((if acc.1 ≠ processDep c (computeBounds isSep orig) problems acc.1 d
          then (processDep c (computeBounds isSep orig) problems acc.1 d, true)
          else acc).1)
      by_cases hch : acc.1 ≠ processDep c (computeBounds isSep orig) problems acc.1 d
      · rw [if_pos hch]
        exact hstep
      · rw [if_neg hch]
        exact hinv

theorem passOnce_regionInv (c : Ctx) (isSep : String → Bool) (orig : List String)
    (hnd : orig.Nodup) (hns : NOSEP ∉ orig)
    (problems : List (String × String)) (movers : List String)
    (o : List String) (hmv : ∀ d ∈ movers, isSep d = false)
    (hinv : regionInv (computeBounds isSep orig) orig o) :
    regionInv (computeBounds isSep orig) orig
      (passOnce c (computeBounds isSep orig) problems movers o).1 :=
  foldl_regionInv c isSep orig hnd hns problems movers (o, false) hmv hinv

theorem correctLoop_regionInv (c : Ctx) (isSep : String → Bool)
    (orig : List String) (hnd : orig.Nodup) (hns : NOSEP ∉ orig)
    (problems : List (String × String)) (movers : List String)
    (hmv : ∀ d ∈ movers, isSep d = false) :
    ∀ (n : Nat) (o : List String),
      regionInv (computeBounds isSep orig) orig o →
      regionInv (computeBounds isSep orig) orig
        (correctLoop c (computeBounds isSep orig) problems movers n o) := by
  intro n
  induction n with
  | zero =>
    intro o hinv
    rw [correctLoop]
    exact hinv
  | succ k ih =>
    intro o hinv
    rw [correctLoop]
    have hp := passOnce_regionInv c isSep orig hnd hns problems movers o hmv hinv
    by_cases hr : (passOnce c (computeBounds isSep orig) problems movers o).2
    · simp only [if_pos hr]
      exact ih _ hp
    · simp only [if_neg hr]
      exact hp

/-- Claim C4: every folder moved by the corrector stays inside its
original separator group's index range. Over a duplicate-free original
order that does not contain the sentinel group name, with every selected
dependent a plain (non-separator) entry, any non-separator folder whose
index in the proposed order differs from its original index has both
indices inside the `[start, end]` range of the separator group recorded
for it by the boundary scan. The claim's proviso about cross-group
provider constraints is not even needed: the search window is capped at
the group's end, so the containment holds unconditionally. -/
theorem c4_separator_containment (c : Ctx) (isSep : String → Bool)
    (orig : List String) (problems : List (String × String))
    (hnd : orig.Nodup) (hnosep : NOSEP ∉ orig)
    (hmv : ∀ pr ∈ problems, isSep pr.1 = false)
    (x : String) (hxs : isSep x = false) (jx j0 : Nat)
    (hjx : posOf? (correctLoadOrder c isSep orig problems) x = some jx)
    (hj0 : posOf? orig x = some j0) (hmoved : jx ≠ j0) :
    ∃ g, (computeBounds isSep orig).sepMap x = some g ∧
      inRegion (computeBounds isSep orig) g j0 ∧
      inRegion (computeBounds isSep orig) g jx := by
  have hmv2 : ∀ d ∈ modsToMove problems, isSep d = false := by
    intro d hd
    unfold modsToMove at hd
    rw [List.mem_dedup] at hd
    obtain ⟨pr, hpr, hpr2⟩ := List.mem_map.mp hd
    rw [← hpr2]
    exact hmv pr hpr
  have hinv0 : regionInv (computeBounds isSep orig) orig orig := by
    refine ⟨List.Perm.refl orig, ?_⟩
    intro y jy hjy
    exact ⟨jy, hjy, Or.inl rfl⟩
  have hfin := correctLoop_regionInv c isSep orig hnd hnosep problems
    (modsToMove problems) hmv2 ((modsToMove problems).length + 2) orig hinv0
  have hres : correctLoadOrder c isSep orig problems =
      correctLoop c (computeBounds isSep orig) problems (modsToMove problems)
        ((modsToMove problems).length + 2) orig := rfl
  rw [hres] at hjx
  obtain ⟨hperm, hpos⟩ := hfin
  obtain ⟨j0e, hj0e, hcase⟩ := hpos x jx hjx
  have hj0e2 : j0e = j0 := by
    have h2 := hj0e
    rw [hj0] at h2
    exact (Option.some.inj h2).symm
  subst hj0e2
  rcases hcase with h1 | ⟨g, hg1, hg2⟩
  · exact absurd h1 hmoved
  · obtain ⟨hK1, hS1⟩ := computeBounds_struct isSep orig hnd hnosep
    obtain ⟨gx, hgx, _, _, huniq⟩ := hS1 x j0e hxs hj0e
    have hggx : g = gx := huniq g hg1
    subst hggx
    exact ⟨g, hgx, hg1, hg2⟩

theorem c4_separator_containment_witness :
    posOf? (correctLoadOrder exABC (fun _ => false) ["B", "A", "C"]
      [("B", "A")]) "B" = some 2 ∧
    posOf? ["B", "A", "C"] "B" = some 0 ∧
    ∃ g, (computeBounds (fun _ => false) ["B", "A", "C"]).sepMap "B" = some g ∧
      inRegion (computeBounds (fun _ => false) ["B", "A", "C"]) g 0 ∧
      inRegion (computeBounds (fun _ => false) ["B", "A", "C"]) g 2 :=
  ⟨by decide, by decide,
    c4_separator_containment exABC (fun _ => false) ["B", "A", "C"]
      [("B", "A")] (by decide) (by decide) (by decide) "B" rfl 2 0
      (by decide) (by decide) (by decide)⟩

end DepAnalysis
